import Mathlib

/-!
Shallow embedding of the `superfast_rsync` core (signature construction,
delta computation, delta application) over byte sequences modelled as
`List Nat`.  Code under `src/` (`signature.rs`, `diff.rs`, `blake3/mod.rs`)
is translated directly.  Components of this repository that are not under
`src/` (the rolling checksum `crc.rs`, the wire constants `consts.rs`, the
second-layer map `hashmap_variant.rs`, the MD4 adapter `md4.rs` and the
delta applier) are modelled from the spec, as marked on each definition.
The cryptographic hash functions themselves are external collaborators and
are abstracted as an environment of functions `List Nat → List Nat`.
-/

namespace SuperfastRsync

/-- Big-endian encoding of `v` into `w` bytes (as in Rust `to_be_bytes`). -/
def beBytes : Nat → Nat → List Nat
  | 0, _ => []
  | w + 1, v => beBytes w (v / 256) ++ [v % 256]

/-- Big-endian value of a byte list (as in Rust `from_be_bytes`). -/
def beVal (l : List Nat) : Nat := l.foldl (fun a b => a * 256 + b) 0

/-! Wire constants.  Modelled from the spec: `consts.rs` is not under
`src/`; magics and opcodes are from spec sections 6.1-6.3. -/

def MD4_MAGIC : Nat := 0x72730136
def BLAKE2_MAGIC : Nat := 0x72730137
def BLAKE3_MAGIC : Nat := 0x72730138
def DELTA_MAGIC : Nat := 0x72730236
def MD4_SIZE : Nat := 16
def BLAKE3_SIZE : Nat := 32
def RS_OP_END : Nat := 0x00
def RS_OP_LITERAL_1 : Nat := 0x01
def RS_OP_LITERAL_N1 : Nat := 0x41
def RS_OP_LITERAL_N2 : Nat := 0x42
def RS_OP_LITERAL_N4 : Nat := 0x43
def RS_OP_LITERAL_N8 : Nat := 0x44
def RS_OP_COPY_N1_N1 : Nat := 0x45

/-- `diff.rs` line 23. -/
def MAX_CRC_COLLISIONS : Nat := 1024

/-- Modelled from the spec: `crc.rs` is not under `src/`.  The 32-bit weak
rolling checksum is two 16-bit halves `s1 = Σ W[i] (mod 2^16)` and
`s2 = Σ (n−i)·W[i] (mod 2^16)` (spec section 4.1). -/
structure Crc where
  s1 : Nat
  s2 : Nat
deriving DecidableEq, Repr

def Crc.SIZE : Nat := 4

def Crc.new : Crc := ⟨0, 0⟩

/-- Modelled from the spec: incremental form of the section 4.1 sums
(processing one byte updates `s1 += b` and `s2 += s1`, both mod 2^16). -/
def Crc.update (c : Crc) (buf : List Nat) : Crc :=
  buf.foldl (fun a b => ⟨(a.s1 + b) % 65536, (a.s2 + a.s1 + b) % 65536⟩) c

/-- Modelled from the spec: `slide(n, old, new)` is `s1 ← s1 − old + new`;
`s2 ← s2 − n·old + s1` (all mod 2^16), spec section 4.1. -/
def Crc.rotate (c : Crc) (size old nw : Nat) : Crc :=
  let t1 : Int := ((c.s1 : Int) - (old : Int) + (nw : Int)) % 65536
  let t2 : Int := ((c.s2 : Int) - (size : Int) * (old : Int) + t1) % 65536
  ⟨t1.toNat, t2.toNat⟩

/-- Modelled from the spec: the combined value `(s2 << 16) | s1`
serialized big-endian in 4 bytes (spec section 4.1). -/
def Crc.toBytes (c : Crc) : List Nat := beBytes 4 (c.s2 * 65536 + c.s1)

/-- Modelled from the spec: inverse of `Crc.toBytes` on a 4-byte record. -/
def Crc.fromBytes (l : List Nat) : Crc := ⟨beVal l % 65536, beVal l / 65536⟩

/-- The cryptographic hash adapters, abstracted.  `md4.rs` is not under
`src/` and `blake3/mod.rs` delegates to the external `blake3` crate, so
both hash functions are environment parameters (spec section 4.2: each
exposes `hash(bytes) → fixed-size digest`; `hash_many` is the order- and
length-preserving map of `hash`, which is exactly what `blake3_many` in
`src/blake3/mod.rs` does). -/
structure HashEnv where
  md4 : List Nat → List Nat
  blake3 : List Nat → List Nat

/-- `signature.rs` lines 41-45. -/
inductive SignatureType
  | md4
  | blake2
  | blake3
deriving DecidableEq, Repr

/-- `signature.rs` lines 49-54. -/
inductive HashAlgorithm
  | md4
  | blake3
deriving DecidableEq, Repr

/-- `SignatureType::from_magic`, `signature.rs` lines 58-65. -/
def SignatureType.fromMagic (bytes : List Nat) : Option SignatureType :=
  if beVal bytes = BLAKE2_MAGIC then some .blake2
  else if beVal bytes = MD4_MAGIC then some .md4
  else if beVal bytes = BLAKE3_MAGIC then some .blake3
  else none

/-- `SignatureType::to_magic`, `signature.rs` lines 66-73. -/
def SignatureType.toMagic : SignatureType → List Nat
  | .md4 => beBytes 4 MD4_MAGIC
  | .blake2 => beBytes 4 BLAKE2_MAGIC
  | .blake3 => beBytes 4 BLAKE3_MAGIC

/-- `HashAlgorithm::to_signature_type`, `signature.rs` lines 78-83. -/
def HashAlgorithm.toSignatureType : HashAlgorithm → SignatureType
  | .md4 => .md4
  | .blake3 => .blake3

/-- `HashAlgorithm::max_hash_size`, `signature.rs` lines 86-91. -/
def HashAlgorithm.maxHashSize : HashAlgorithm → Nat
  | .md4 => MD4_SIZE
  | .blake3 => BLAKE3_SIZE

/-- The hash function the environment supplies for an algorithm. -/
def HashEnv.hashFor (env : HashEnv) : HashAlgorithm → (List Nat → List Nat)
  | .md4 => env.md4
  | .blake3 => env.blake3

/-- The per-signature-type digest used inside `diff` (`diff.rs` lines
203-207): MD4 and BLAKE3 hash the window, BLAKE2 is unimplemented and
yields the invalid-signature error. -/
def SignatureType.digest? (ty : SignatureType) (env : HashEnv) (w : List Nat) :
    Option (List Nat) :=
  match ty with
  | .md4 => some (env.md4 w)
  | .blake3 => some (env.blake3 w)
  | .blake2 => none

/-- `SignatureOptions`, `signature.rs` lines 108-117. -/
structure SignatureOptions where
  block_size : Nat
  crypto_hash_size : Nat
  hash_algorithm : HashAlgorithm
deriving DecidableEq, Repr

/-- `Signature`, `signature.rs` lines 19-26. -/
structure Signature where
  signature_type : SignatureType
  block_size : Nat
  crypto_hash_size : Nat
  signature : List Nat
deriving DecidableEq, Repr

/-- Rust's `slice::chunks`: consecutive blocks of `n` elements, the last
possibly shorter (used by `Signature::calculate` via `chunks_exact` plus
the manually appended remainder, which yields the same list). -/
def listChunks {α : Type} (n : Nat) : List α → List (List α)
  | [] => []
  | x :: xs =>
    if _h : n = 0 then []
    else (x :: xs).take n :: listChunks n ((x :: xs).drop n)
termination_by l => l.length
decreasing_by
  simp only [List.length_drop, List.length_cons]
  omega

/-- The per-block records of the signature body: `CRC ∥ strong[0..n]` for
each block (`Signature::calculate`, `signature.rs` lines 141-174). -/
def sigBody (h : List Nat → List Nat) (n : Nat) (blocks : List (List Nat)) :
    List Nat :=
  (blocks.map (fun b => (Crc.new.update b).toBytes ++ (h b).take n)).flatten

/-- `Signature::calculate`, `signature.rs` lines 126-182.  The two
`assert!`s are modelled by returning `none` (a panic); otherwise the
12-byte header plus the per-block records are produced. -/
def Signature.calculate? (env : HashEnv) (buf : List Nat)
    (options : SignatureOptions) : Option Signature :=
  if options.block_size = 0 then none
  else if options.hash_algorithm.maxHashSize < options.crypto_hash_size then none
  else
    let ty := options.hash_algorithm.toSignatureType
    some
      { signature_type := ty
        block_size := options.block_size
        crypto_hash_size := options.crypto_hash_size
        signature :=
          ty.toMagic ++ beBytes 4 options.block_size ++
            beBytes 4 options.crypto_hash_size ++
            sigBody (env.hashFor options.hash_algorithm) options.crypto_hash_size
              (listChunks options.block_size buf) }

/-- `Signature::deserialize`, `signature.rs` lines 185-203.
`SignatureParseError` is modelled as `Unit`. -/
def Signature.deserialize (signature : List Nat) : Except Unit Signature :=
  if signature.length < 12 then .error ()
  else
    match SignatureType.fromMagic (signature.take 4) with
    | none => .error ()
    | some ty =>
      let block_size := beVal ((signature.drop 4).take 4)
      let crypto_hash_size := beVal ((signature.drop 8).take 4)
      if (signature.length - 12) % (Crc.SIZE + crypto_hash_size) ≠ 0 then .error ()
      else .ok ⟨ty, block_size, crypto_hash_size, signature⟩

/-- `Signature::blocks`, `signature.rs` lines 215-224: the `(crc, strong
hash)` records parsed back out of the serialized blob. -/
def Signature.blocksList (s : Signature) : List (Crc × List Nat) :=
  (listChunks (Crc.SIZE + s.crypto_hash_size) (s.signature.drop 12)).map
    (fun b => (Crc.fromBytes (b.take 4), b.drop 4))

/-- Modelled from the spec: `hashmap_variant.rs` (the `SecondLayerMap`) is
not under `src/`.  Spec section 4.6: a map keyed by byte slices with
byte-equality on keys; represented as an association list where insertion
replaces the value of an existing key. -/
def slmInsert (m : List (List Nat × Nat)) (k : List Nat) (v : Nat) :
    List (List Nat × Nat) :=
  match m with
  | [] => [(k, v)]
  | (k0, v0) :: t => if k = k0 then (k0, v) :: t else (k0, v0) :: slmInsert t k v

/-- Modelled from the spec: lookup in the second-layer map. -/
def slmGet (m : List (List Nat × Nat)) (k : List Nat) : Option Nat :=
  match m with
  | [] => none
  | (k0, v0) :: t => if k = k0 then some v0 else slmGet t k

/-- The outer `HashMap<Crc, SecondLayerMap, BuildCrcHasher>` of the index
(`signature.rs` line 35), modelled as an association list; the identity
hasher only affects performance, not the map's semantics. -/
def crcMapInsert (m : List (Crc × List (List Nat × Nat))) (c : Crc)
    (k : List Nat) (v : Nat) : List (Crc × List (List Nat × Nat)) :=
  match m with
  | [] => [(c, slmInsert [] k v)]
  | (c0, slm) :: t =>
    if c = c0 then (c0, slmInsert slm k v) :: t else (c0, slm) :: crcMapInsert t c k v

/-- Lookup in the outer map. -/
def crcMapGet (m : List (Crc × List (List Nat × Nat))) (c : Crc) :
    Option (List (List Nat × Nat)) :=
  match m with
  | [] => none
  | (c0, slm) :: t => if c = c0 then some slm else crcMapGet t c

/-- The indexing loop of `Signature::index` (`signature.rs` lines 231-236):
`block_index.entry(crc).or_default().insert(crypto_hash, idx as u32)` for
each enumerated block; the `as u32` cast wraps the enumeration index at
`2 ^ 32`. -/
def buildIndexGo (i : Nat) (m : List (Crc × List (List Nat × Nat))) :
    List (Crc × List Nat) → List (Crc × List (List Nat × Nat))
  | [] => m
  | (c, k) :: t => buildIndexGo (i + 1) (crcMapInsert m c k (i % 2 ^ 32)) t

def buildIndex (es : List (Crc × List Nat)) : List (Crc × List (List Nat × Nat)) :=
  buildIndexGo 0 [] es

/-- `IndexedSignature`, `signature.rs` lines 30-36. -/
structure IndexedSignature where
  signature_type : SignatureType
  block_size : Nat
  crypto_hash_size : Nat
  blocks : List (Crc × List (List Nat × Nat))
deriving DecidableEq, Repr

/-- `Signature::index`, `signature.rs` lines 227-249 (`shrink_to_fit` has
no observable effect on the map's contents). -/
def Signature.index (s : Signature) : IndexedSignature :=
  ⟨s.signature_type, s.block_size, s.crypto_hash_size, buildIndex s.blocksList⟩

/-- `insert_command`, `diff.rs` lines 51-69.  The source `assert!(len != 0)`
cannot fire from `diff`/`diff_parallel` (see the literal-length theorems);
the encoding below is the `len ≥ 1` behaviour. -/
def insert_command (len : Nat) : List Nat :=
  if len ≤ 64 then [RS_OP_LITERAL_1 + (len - 1)]
  else if len ≤ 255 then [RS_OP_LITERAL_N1, len]
  else if len ≤ 65535 then RS_OP_LITERAL_N2 :: beBytes 2 len
  else if len ≤ 4294967295 then RS_OP_LITERAL_N4 :: beBytes 4 len
  else RS_OP_LITERAL_N8 :: beBytes 8 len

/-- `u64_size_class`, `diff.rs` lines 72-82. -/
def u64SizeClass (val : Nat) : Nat :=
  if val ≤ 255 then 0
  else if val ≤ 65535 then 1
  else if val ≤ 4294967295 then 2
  else 3

/-- `write_varint`, `diff.rs` lines 91-103: the value in 1/2/4/8 big-endian
bytes according to its size class. -/
def writeVarint (val : Nat) : List Nat := beBytes (2 ^ u64SizeClass val) val

/-- `copy_command`, `diff.rs` lines 71-111. -/
def copy_command (offset len : Nat) : List Nat :=
  (RS_OP_COPY_N1_N1 + u64SizeClass offset * 4 + u64SizeClass len) ::
    writeVarint offset ++ writeVarint len

/-- Ghost events recorded by the embedded matcher: each strong-hash
computation during a lookup (with whether it matched) and each literal
command length passed to `insert_command`. -/
inductive Ev
  | hash (crc : Crc) (hit : Bool)
  | lit (len : Nat)
deriving DecidableEq, Repr

/-- `OutputState`, `diff.rs` lines 113-116. -/
structure OutputState where
  emitted : Nat
  queued_copy : Option (Nat × Nat)
deriving DecidableEq, Repr

/-- `OutputState::emit`, `diff.rs` lines 119-135, returning the bytes it
writes and the ghost literal event.  Note that the source does not clear
`queued_copy` after flushing it. -/
def OutputState.emit (st : OutputState) (untl : Nat) (data : List Nat) :
    OutputState × List Nat × List Ev :=
  if st.emitted = untl then (st, [], [])
  else
    let p :=
      match st.queued_copy with
      | some (offset, len) => (st.emitted + len, copy_command offset len)
      | none => (st.emitted, ([] : List Nat))
    if p.1 < untl then
      let toEmit := (data.drop p.1).take (untl - p.1)
      (⟨untl, st.queued_copy⟩, p.2 ++ insert_command toEmit.length ++ toEmit,
        [.lit toEmit.length])
    else (⟨p.1, st.queued_copy⟩, p.2, [])

/-- `OutputState::copy`, `diff.rs` lines 137-156. -/
def OutputState.copy (st : OutputState) (offset len here : Nat)
    (data : List Nat) : OutputState × List Nat × List Ev :=
  match st.queued_copy with
  | some (qoff, qlen) =>
    if st.emitted + qlen = here ∧ qoff + qlen = offset then
      (⟨st.emitted, some (qoff, qlen + len)⟩, [], [])
    else
      let r := st.emit here data
      (⟨r.1.emitted, some (offset, len)⟩, r.2.1, r.2.2)
  | none =>
    let r := st.emit here data
    (⟨r.1.emitted, some (offset, len)⟩, r.2.1, r.2.2)

/-- `DiffError`, `diff.rs` lines 27-32 (`Io` is never produced here: the
sink is a pure list and cannot fail). -/
inductive DiffError
  | invalidSignature
  | io
deriving DecidableEq, Repr

/-- Outcome of the embedded matcher.  `timeout` models divergence of the
source loop (reachable only with `block_size = 0`); every outcome carries
the ghost events. -/
inductive DiffOut
  | timeout (evs : List Ev)
  | fail (e : DiffError) (evs : List Ev)
  | done (delta : List Nat) (evs : List Ev)
deriving DecidableEq, Repr

def DiffOut.consEvs (es : List Ev) : DiffOut → DiffOut
  | .timeout evs => .timeout (es ++ evs)
  | .fail e evs => .fail e (es ++ evs)
  | .done d evs => .done d (es ++ evs)

def DiffOut.consOut (o : List Nat) : DiffOut → DiffOut
  | .done d evs => .done (o ++ d) evs
  | r => r

def DiffOut.evs : DiffOut → List Ev
  | .timeout evs => evs
  | .fail _ evs => evs
  | .done _ evs => evs

/-- Lookup in the `collisions` map (`collisions.get(&crc)`). -/
def collGet (coll : List (Crc × Nat)) (c : Crc) : Option Nat :=
  match coll with
  | [] => none
  | (c0, n) :: t => if c = c0 then some n else collGet t c

/-- The blacklist guard, `diff.rs` lines 198-201:
`collisions.get(&crc).is_none_or(|&count| count < MAX_CRC_COLLISIONS)`. -/
def collOk (coll : List (Crc × Nat)) (c : Crc) : Bool :=
  match collGet coll c with
  | none => true
  | some n => n < MAX_CRC_COLLISIONS

/-- `*collisions.entry(crc).or_insert(0) += 1`, `diff.rs` line 221. -/
def collIncr (coll : List (Crc × Nat)) (c : Crc) : List (Crc × Nat) :=
  match coll with
  | [] => [(c, 1)]
  | (c0, n) :: t => if c = c0 then (c0, n + 1) :: t else (c0, n) :: collIncr t c

/-- The tail of `diff` (`diff.rs` lines 236-237): emit the unmatched suffix
and the END opcode. -/
def diffTail (st : OutputState) (data : List Nat) : List Nat × List Ev :=
  let r := st.emit data.length data
  (r.2.1 ++ [RS_OP_END], r.2.2)

/-- The matching loop of `diff`, `diff.rs` lines 194-235, with explicit
fuel (the source loop advances `here` by at least one per iteration when
`block_size ≥ 1`; with `block_size = 0` it diverges, which the fuel models
as `timeout`).  Each iteration is at position `here` with the current
rolling checksum `crc`; the outer `while` recomputes a fresh checksum
after a match, the inner byte-advance rotates it. -/
def diffGo (env : HashEnv) (ty : SignatureType) (bs n : Nat)
    (blocks : List (Crc × List (List Nat × Nat))) (data : List Nat) :
    Nat → Nat → Crc → List (Crc × Nat) → OutputState → DiffOut
  | 0, _, _, _, _ => .timeout []
  | fuel + 1, here, crc, coll, st =>
    if collOk coll crc then
      match crcMapGet blocks crc with
      | some slm =>
        match ty.digest? env ((data.drop here).take bs) with
        | none => .fail .invalidSignature []
        | some digest =>
          match slmGet slm (digest.take n) with
          | some idx =>
            let r := st.copy (idx * bs) bs here data
            let here1 := here + bs
            if bs + here1 ≤ data.length then
              (((diffGo env ty bs n blocks data fuel here1
                    (Crc.new.update ((data.drop here1).take bs)) coll r.1).consOut
                  r.2.1).consEvs (Ev.hash crc true :: r.2.2))
            else
              let t := diffTail r.1 data
              .done (r.2.1 ++ t.1) (Ev.hash crc true :: (r.2.2 ++ t.2))
          | none =>
            let here1 := here + 1
            if data.length < here1 + bs then
              let t := diffTail st data
              .done t.1 (Ev.hash crc false :: t.2)
            else
              ((diffGo env ty bs n blocks data fuel here1
                  (crc.rotate bs (data.getD (here1 - 1) 0)
                    (data.getD (here1 + bs - 1) 0))
                  (collIncr coll crc) st).consEvs [Ev.hash crc false])
      | none =>
        let here1 := here + 1
        if data.length < here1 + bs then
          let t := diffTail st data
          .done t.1 t.2
        else
          diffGo env ty bs n blocks data fuel here1
            (crc.rotate bs (data.getD (here1 - 1) 0) (data.getD (here1 + bs - 1) 0))
            coll st
    else
      let here1 := here + 1
      if data.length < here1 + bs then
        let t := diffTail st data
        .done t.1 t.2
      else
        diffGo env ty bs n blocks data fuel here1
          (crc.rotate bs (data.getD (here1 - 1) 0) (data.getD (here1 + bs - 1) 0))
          coll st

/-- The pre-flight checks of `diff`, `diff.rs` lines 175-185: MD4 and
BLAKE3 are accepted when `crypto_hash_size` does not exceed the family
maximum; BLAKE2 is rejected. -/
def diffPreflightOk (ty : SignatureType) (chs : Nat) : Bool :=
  match ty with
  | .md4 => chs ≤ MD4_SIZE
  | .blake3 => chs ≤ BLAKE3_SIZE
  | .blake2 => false

/-- `diff`, `diff.rs` lines 168-239. -/
def diff (env : HashEnv) (signature : IndexedSignature) (data : List Nat) :
    DiffOut :=
  let bs := signature.block_size
  if diffPreflightOk signature.signature_type signature.crypto_hash_size then
    if bs ≤ data.length then
      ((diffGo env signature.signature_type bs signature.crypto_hash_size
          signature.blocks data (data.length + 1) 0
          (Crc.new.update ((data.drop 0).take bs)) [] ⟨0, none⟩).consOut
        (beBytes 4 DELTA_MAGIC))
    else
      let t := diffTail ⟨0, none⟩ data
      .done (beBytes 4 DELTA_MAGIC ++ t.1) t.2
  else .fail .invalidSignature []

/-- One parallel worker's lookup, `diff_parallel`, `diff.rs` lines 280-292. -/
def parLookup (env : HashEnv) (n bs : Nat)
    (blocks : List (Crc × List (List Nat × Nat))) (data : List Nat)
    (start : Nat) : Option (Nat × Nat × Nat) :=
  let en := min (start + bs) data.length
  let blockData := (data.drop start).take (en - start)
  let crc := Crc.new.update blockData
  match crcMapGet blocks crc with
  | some slm =>
    let digest := env.blake3 blockData
    match slmGet slm (digest.take n) with
    | some idx => some (start, idx * bs, bs)
    | none => none
  | none => none

/-- The sequential assembly of the parallel results, `diff.rs` lines
294-306. -/
def parFold (data : List Nat) (st : OutputState) :
    List (Option (Nat × Nat × Nat)) → OutputState × List Nat × List Ev
  | [] => (st, [], [])
  | none :: t => parFold data st t
  | some (start, offset, len) :: t =>
    let r1 := st.emit start data
    let r2 := r1.1.copy offset len start data
    let r3 := parFold data r2.1 t
    (r3.1, r1.2.1 ++ r2.2.1 ++ r3.2.1, r1.2.2 ++ r2.2.2 ++ r3.2.2)

/-- `diff_parallel`, `diff.rs` lines 254-310.  MD4 falls through to the
sequential `diff`; only BLAKE3 is parallelized; the block-aligned window
starts are `0, bs, 2·bs, …` below `data.len().saturating_sub(bs - 1)`.
With `block_size = 0` the source panics on `block_size_usize - 1`
(usize underflow), modelled as `none`. -/
def diff_parallel (env : HashEnv) (signature : IndexedSignature)
    (data : List Nat) : Option DiffOut :=
  if signature.signature_type = .md4 then some (diff env signature data)
  else
    let bs := signature.block_size
    let chs := signature.crypto_hash_size
    if signature.signature_type = .blake3 then
      if BLAKE3_SIZE < chs then some (.fail .invalidSignature [])
      else if bs = 0 then none
      else
        let results := (List.range' 0 (((data.length - (bs - 1)) + bs - 1) / bs) bs).map
          (parLookup env chs bs signature.blocks data)
        let f := parFold data ⟨0, none⟩ results
        let t := f.1.emit data.length data
        some (.done (beBytes 4 DELTA_MAGIC ++ f.2.1 ++ t.2.1 ++ [RS_OP_END])
          (f.2.2 ++ t.2.2))
    else some (.fail .invalidSignature [])

/-- Modelled from the spec: the applier error kinds of spec section 7
(the applier is part of this repository but not under `src/`). -/
inductive ApplyError
  | wrongMagic
  | unexpectedEof
  | unknownCommand (op : Nat)
  | outOfBounds
deriving DecidableEq, Repr

/-- Modelled from the spec: the applier's instruction loop, spec sections
4.5 (Applier) and 6.3 (opcode table).  Reads one opcode at a time:
END finishes (remaining bytes ignored), `0x01..0x40` are inline literals
of that length, `0x41..0x44` are literals with a 1/2/4/8-byte big-endian
length, `0x45..0x54` are copies with offset/length widths decoded from
the opcode, anything else is `UnknownCommand`; truncation yields
`UnexpectedEof` and a copy past the end of the base `OutOfBounds`. -/
def applyGo (base : List Nat) : Nat → List Nat → List Nat → Except ApplyError (List Nat)
  | 0, _, _ => .error .unexpectedEof
  | _ + 1, [], _ => .error .unexpectedEof
  | fuel + 1, op :: rest, out =>
    if op = RS_OP_END then .ok out
    else if op ≤ 64 then
      if rest.length < op then .error .unexpectedEof
      else applyGo base fuel (rest.drop op) (out ++ rest.take op)
    else if RS_OP_LITERAL_N1 ≤ op ∧ op ≤ RS_OP_LITERAL_N8 then
      let w := 2 ^ (op - RS_OP_LITERAL_N1)
      if rest.length < w then .error .unexpectedEof
      else
        let len := beVal (rest.take w)
        if (rest.drop w).length < len then .error .unexpectedEof
        else applyGo base fuel ((rest.drop w).drop len) (out ++ (rest.drop w).take len)
    else if RS_OP_COPY_N1_N1 ≤ op ∧ op ≤ 0x54 then
      let wo := 2 ^ ((op - RS_OP_COPY_N1_N1) / 4)
      let wl := 2 ^ ((op - RS_OP_COPY_N1_N1) % 4)
      if rest.length < wo + wl then .error .unexpectedEof
      else
        let offset := beVal (rest.take wo)
        let len := beVal ((rest.drop wo).take wl)
        if base.length < offset + len then .error .outOfBounds
        else applyGo base fuel (rest.drop (wo + wl)) (out ++ (base.drop offset).take len)
    else .error (.unknownCommand op)

/-- The applier's instruction loop.  Every step of the loop consumes at
least the opcode byte, so `d.length + 1` steps always suffice and the
fuel of `applyGo` is never exhausted (`applyGo_mono` below makes the
fuel choice irrelevant). -/
def applyLoop (base d out : List Nat) : Except ApplyError (List Nat) :=
  applyGo base (d.length + 1) d out

/-- Modelled from the spec: `apply`, spec section 4.5 (Applier), step 1:
require the delta magic, then interpret the instruction stream. -/
def apply (base delta : List Nat) : Except ApplyError (List Nat) :=
  if delta.length < 4 ∨ delta.take 4 ≠ beBytes 4 DELTA_MAGIC then .error .wrongMagic
  else applyLoop base (delta.drop 4) []

/-- Number of failed strong-hash comparisons recorded for a given CRC. -/
def missCount (evs : List Ev) (c : Crc) : Nat :=
  (evs.filter (fun e => e = Ev.hash c false)).length

/-- The blacklist discipline as a trace property: starting from `k`
prior misses for `c`, every strong-hash event for `c` happens while the
count is below `MAX_CRC_COLLISIONS`, and a miss increments the count. -/
def EvGuard (c : Crc) : Nat → List Ev → Prop
  | _, [] => True
  | k, Ev.hash c0 hit :: t =>
    (c0 = c → k < MAX_CRC_COLLISIONS) ∧
      EvGuard c (if c0 = c ∧ hit = false then k + 1 else k) t
  | k, Ev.lit _ :: t => EvGuard c k t

/-- A delta body that consists purely of COPY instructions followed by the
END opcode. -/
inductive CopyStream : List Nat → Prop
  | nil : CopyStream [RS_OP_END]
  | cons (offset len : Nat) (s : List Nat) :
      CopyStream s → CopyStream (copy_command offset len ++ s)

/-- A concrete hash environment used for witnesses: digests of the right
fixed sizes whose first component is an injective encoding of the block. -/
def env0 : HashEnv :=
  { md4 := fun l => Encodable.encode l :: List.replicate 15 0
    blake3 := fun l => Encodable.encode l :: List.replicate 31 0 }

/-- A degenerate constant-digest environment used for concrete runs whose
outcome does not depend on the hash values. -/
def envC : HashEnv :=
  { md4 := fun _ => List.replicate 16 0
    blake3 := fun _ => List.replicate 32 0 }

/-- One 1024-byte block: the four bytes of "abcd" repeated 256 times. -/
def c47 : List Nat := (List.replicate 256 [97, 98, 99, 100]).flatten

/-- The 4096-byte input of spec test vector 5: "abcd" repeated 1024 times,
grouped here as four copies of the 1024-byte block `c47` ("abcd" × 256). -/
def base47 : List Nat := (List.replicate 4 c47).flatten

/-! Proof-support definitions. -/

/-- `out` is a chunk of instruction stream that makes the applier append
exactly `s` to its accumulator and continue. -/
def Produces (base out s : List Nat) : Prop :=
  ∀ rest acc, applyLoop base (out ++ rest) acc = applyLoop base rest (acc ++ s)

/-- The output-state invariant of the matching loop at position `pos`:
everything up to `emitted` is materialized, and a queued copy is a true
match of the target bytes from `emitted` on, ending at or before `pos`. -/
def StInv (base data : List Nat) (st : OutputState) (pos : Nat) : Prop :=
  match st.queued_copy with
  | none => st.emitted ≤ pos
  | some (off, len) =>
      1 ≤ len ∧ st.emitted + len ≤ pos ∧ off + len ≤ base.length ∧
        (base.drop off).take len = (data.drop st.emitted).take len

/-- Length of the queued copy, zero when none is queued. -/
def queuedLen (st : OutputState) : Nat :=
  match st.queued_copy with
  | none => 0
  | some (_, len) => len

/-- Soundness of an index relative to the signature records `es`: every
successful two-level lookup returns the position of a record with that
CRC and strong-hash key. -/
def EsSound (es : List (Crc × List Nat))
    (m : List (Crc × List (List Nat × Nat))) : Prop :=
  ∀ c k i slm, crcMapGet m c = some slm → slmGet slm k = some i →
    es[i]? = some (c, k)

/-- Completeness of an index relative to the records `es`: every record
key can be looked up and yields the position of a record with the same
CRC and strong-hash key. -/
def EsComplete (es : List (Crc × List Nat))
    (m : List (Crc × List (List Nat × Nat))) : Prop :=
  ∀ c k, (c, k) ∈ es →
    ∃ slm i, crcMapGet m c = some slm ∧ slmGet slm k = some i ∧
      es[i]? = some (c, k)

/-- Soundness of an index against the base's chunks: any hit names a
block whose truncated strong hash is the lookup key. -/
def IdxSound (hsh : List Nat → List Nat) (n : Nat) (bchunks : List (List Nat))
    (m : List (Crc × List (List Nat × Nat))) : Prop :=
  ∀ c k i slm, crcMapGet m c = some slm → slmGet slm k = some i →
    ∃ b, bchunks[i]? = some b ∧ k = (hsh b).take n

end SuperfastRsync

deriving instance DecidableEq for Except

namespace SuperfastRsync

/-! Byte-codec lemmas. -/

theorem beBytes_length (w v : Nat) : (beBytes w v).length = w := by
  induction w generalizing v with
  | zero => rfl
  | succ w ih => simp [beBytes, ih]

theorem beVal_append_single (l : List Nat) (b : Nat) :
    beVal (l ++ [b]) = beVal l * 256 + b := by
  simp [beVal, List.foldl_append]

theorem beVal_beBytes (w v : Nat) (h : v < 256 ^ w) :
    beVal (beBytes w v) = v := by
  induction w generalizing v with
  | zero =>
    have hv : v = 0 := by simpa using h
    subst hv; rfl
  | succ w ih =>
    have hdiv : v / 256 < 256 ^ w := by
      rw [Nat.div_lt_iff_lt_mul (by norm_num)]
      calc v < 256 ^ (w + 1) := h
        _ = 256 ^ w * 256 := by rw [pow_succ]
    rw [beBytes, beVal_append_single, ih _ hdiv]
    omega

/-! Chunking lemmas. -/

theorem listChunks_nil {α : Type} (n : Nat) : listChunks n ([] : List α) = [] := by
  simp [listChunks]

theorem listChunks_cons_eq {α : Type} (n : Nat) (l : List α) (hn : n ≠ 0)
    (hl : l ≠ []) : listChunks n l = l.take n :: listChunks n (l.drop n) := by
  match l with
  | [] => exact absurd rfl hl
  | x :: xs => rw [listChunks]; simp [hn]

theorem listChunks_flatten {α : Type} (n : Nat) (hn : 1 ≤ n) (rs : List (List α))
    (h : ∀ r ∈ rs, r.length = n) : listChunks n rs.flatten = rs := by
  induction rs with
  | nil => simp [listChunks]
  | cons r rs ih =>
    have hr : r.length = n := h r (by simp)
    have hne : (r ++ rs.flatten) ≠ [] := by
      intro hc
      apply_fun List.length at hc
      simp [hr] at hc
      omega
    rw [List.flatten_cons, listChunks_cons_eq n _ (by omega) hne, ← hr,
      List.take_left, List.drop_left]
    rw [hr, ih (fun r2 hr2 => h r2 (by simp [hr2]))]

theorem listChunks_get {α : Type} (n : Nat) (hn : 1 ≤ n) (l : List α) (i : Nat)
    (b : List α) (h : (listChunks n l)[i]? = some b) :
    b = (l.drop (i * n)).take n ∧ b ≠ [] := by
  induction i generalizing l with
  | zero =>
    cases l with
    | nil => simp [listChunks] at h
    | cons x xs =>
      rw [listChunks_cons_eq n _ (by omega) (by simp)] at h
      simp only [List.getElem?_cons_zero, Option.some.injEq] at h
      subst h
      refine ⟨by simp, ?_⟩
      cases n with
      | zero => omega
      | succ m => simp [List.take]
  | succ i ih =>
    cases l with
    | nil => simp [listChunks] at h
    | cons x xs =>
      rw [listChunks_cons_eq n _ (by omega) (by simp)] at h
      simp only [List.getElem?_cons_succ] at h
      obtain ⟨hb, hbne⟩ := ih _ h
      refine ⟨?_, hbne⟩
      rw [hb, List.drop_drop]
      congr 1
      ring

/-! Association-map lemmas. -/

theorem slmGet_insert (m : List (List Nat × Nat)) (k0 k : List Nat) (v0 : Nat) :
    slmGet (slmInsert m k0 v0) k = if k = k0 then some v0 else slmGet m k := by
  induction m with
  | nil => simp [slmInsert, slmGet]
  | cons p t ih =>
    obtain ⟨k1, v1⟩ := p
    by_cases h01 : k0 = k1
    · subst h01
      simp only [slmInsert, if_pos rfl, slmGet]
      by_cases h : k = k0 <;> simp [h]
    · simp only [slmInsert, if_neg h01, slmGet]
      by_cases h1 : k = k1
      · subst h1
        have hk0 : ¬ k = k0 := fun hc => h01 hc.symm
        simp [hk0]
      · simp [h1, ih]

theorem crcMapGet_insert (m : List (Crc × List (List Nat × Nat))) (c0 c : Crc)
    (k : List Nat) (v : Nat) :
    crcMapGet (crcMapInsert m c0 k v) c =
      if c = c0 then some (slmInsert ((crcMapGet m c0).getD []) k v)
      else crcMapGet m c := by
  induction m with
  | nil => simp [crcMapInsert, crcMapGet]
  | cons p t ih =>
    obtain ⟨c1, slm1⟩ := p
    by_cases h01 : c0 = c1
    · subst h01
      simp only [crcMapInsert, if_pos rfl, crcMapGet]
      by_cases h : c = c0 <;> simp [h]
    · simp only [crcMapInsert, if_neg h01, crcMapGet]
      by_cases h1 : c = c1
      · subst h1
        have hne : ¬ c = c0 := fun hc => h01 hc.symm
        simp [hne]
      · simp [h1, ih]

theorem collGet_incr (coll : List (Crc × Nat)) (c0 c : Crc) :
    collGet (collIncr coll c0) c =
      if c = c0 then some ((collGet coll c0).getD 0 + 1) else collGet coll c := by
  induction coll with
  | nil => simp [collIncr, collGet]
  | cons p t ih =>
    obtain ⟨c1, n1⟩ := p
    by_cases h01 : c0 = c1
    · subst h01
      simp only [collIncr, if_pos rfl, collGet]
      by_cases h : c = c0 <;> simp [h]
    · simp only [collIncr, if_neg h01, collGet]
      by_cases h1 : c = c1
      · subst h1
        have hne : ¬ c = c0 := fun hc => h01 hc.symm
        simp [hne]
      · simp [h1, ih]

/-! Index construction: soundness and completeness. -/

theorem esSound_insert (es : List (Crc × List Nat))
    (m : List (Crc × List (List Nat × Nat))) (c0 : Crc) (k0 : List Nat) (i0 : Nat)
    (hm : EsSound es m) (h0 : es[i0]? = some (c0, k0)) :
    EsSound es (crcMapInsert m c0 k0 i0) := by
  intro c k i slm hc hk
  rw [crcMapGet_insert] at hc
  by_cases hcc : c = c0
  · subst hcc
    rw [if_pos rfl] at hc
    injection hc with hc
    subst hc
    rw [slmGet_insert] at hk
    by_cases hkk : k = k0
    · subst hkk
      rw [if_pos rfl] at hk
      injection hk with hk
      rw [← hk]
      exact h0
    · rw [if_neg hkk] at hk
      cases hg : crcMapGet m c with
      | none => rw [hg] at hk; simp [slmGet] at hk
      | some slm0 =>
        rw [hg] at hk
        simp only [Option.getD_some] at hk
        exact hm _ _ _ _ hg hk
  · rw [if_neg hcc] at hc
    exact hm _ _ _ _ hc hk

theorem esSound_go (es : List (Crc × List Nat)) :
    ∀ (t : List (Crc × List Nat)) (i : Nat)
      (m : List (Crc × List (List Nat × Nat))),
      i + t.length ≤ 2 ^ 32 →
      EsSound es m → (∀ j b, t[j]? = some b → es[i + j]? = some b) →
      EsSound es (buildIndexGo i m t) := by
  intro t
  induction t with
  | nil => intro i m _ hm _; exact hm
  | cons e t ih =>
    intro i m hb hm ht
    simp only [List.length_cons] at hb
    have hi : i % 2 ^ 32 = i := Nat.mod_eq_of_lt (by omega)
    obtain ⟨c, k⟩ := e
    have h0 : es[i % 2 ^ 32]? = some (c, k) := by
      rw [hi]
      have := ht 0 (c, k) (by simp)
      simpa using this
    refine ih (i + 1) _ (by omega)
      (esSound_insert es m c k (i % 2 ^ 32) hm h0) ?_
    intro j b hj
    have := ht (j + 1) b (by simpa using hj)
    have harith : i + (j + 1) = i + 1 + j := by omega
    rwa [harith] at this

theorem buildIndex_sound (es : List (Crc × List Nat))
    (h32 : es.length ≤ 2 ^ 32) :
    EsSound es (buildIndex es) := by
  refine esSound_go es es 0 [] (by omega) ?_ ?_
  · intro c k i slm hc _
    simp [crcMapGet] at hc
  · intro j b hj
    simpa using hj

theorem esComplete_insert (es : List (Crc × List Nat))
    (m : List (Crc × List (List Nat × Nat))) (c0 : Crc) (k0 : List Nat) (i0 : Nat)
    (h0 : es[i0]? = some (c0, k0)) (c : Crc) (k : List Nat)
    (h : (∃ slm i, crcMapGet m c = some slm ∧ slmGet slm k = some i ∧
        es[i]? = some (c, k)) ∨ (c = c0 ∧ k = k0)) :
    ∃ slm i, crcMapGet (crcMapInsert m c0 k0 i0) c = some slm ∧
      slmGet slm k = some i ∧ es[i]? = some (c, k) := by
  rcases h with ⟨slm, i, hc, hk, he⟩ | ⟨hc, hk⟩
  · by_cases hcc : c = c0
    · subst hcc
      have hget : crcMapGet (crcMapInsert m c k0 i0) c = some (slmInsert slm k0 i0) := by
        rw [crcMapGet_insert, if_pos rfl, hc]
        rfl
      by_cases hkk : k = k0
      · subst hkk
        refine ⟨_, i0, hget, ?_, h0⟩
        rw [slmGet_insert, if_pos rfl]
      · refine ⟨_, i, hget, ?_, he⟩
        rw [slmGet_insert, if_neg hkk]
        exact hk
    · refine ⟨slm, i, ?_, hk, he⟩
      rw [crcMapGet_insert, if_neg hcc]
      exact hc
  · subst hc
    subst hk
    refine ⟨slmInsert ((crcMapGet m c).getD []) k i0, i0, ?_, ?_, h0⟩
    · rw [crcMapGet_insert, if_pos rfl]
    · rw [slmGet_insert, if_pos rfl]

theorem esComplete_go (es : List (Crc × List Nat)) :
    ∀ (t : List (Crc × List Nat)) (i : Nat)
      (m : List (Crc × List (List Nat × Nat))),
      i + t.length ≤ 2 ^ 32 →
      (∀ j b, t[j]? = some b → es[i + j]? = some b) →
      (∀ c k, (c, k) ∈ es → ((c, k) ∈ t ∨
        ∃ slm i2, crcMapGet m c = some slm ∧ slmGet slm k = some i2 ∧
          es[i2]? = some (c, k))) →
      EsComplete es (buildIndexGo i m t) := by
  intro t
  induction t with
  | nil =>
    intro i m _ _ hcov c k hck
    rcases hcov c k hck with hmem | hprov
    · simp at hmem
    · exact hprov
  | cons e t ih =>
    intro i m hb ht hcov
    simp only [List.length_cons] at hb
    have hi : i % 2 ^ 32 = i := Nat.mod_eq_of_lt (by omega)
    obtain ⟨c0, k0⟩ := e
    have h0 : es[i % 2 ^ 32]? = some (c0, k0) := by
      rw [hi]
      have := ht 0 (c0, k0) (by simp)
      simpa using this
    refine ih (i + 1) _ (by omega) ?_ ?_
    · intro j b hj
      have := ht (j + 1) b (by simpa using hj)
      have harith : i + (j + 1) = i + 1 + j := by omega
      rwa [harith] at this
    · intro c k hck
      rcases hcov c k hck with hmem | hprov
      · rcases List.mem_cons.mp hmem with heq | hmem2
        · right
          refine esComplete_insert es m c0 k0 (i % 2 ^ 32) h0 c k (Or.inr ?_)
          injection heq with h1 h2
          exact ⟨h1, h2⟩
        · left
          exact hmem2
      · right
        exact esComplete_insert es m c0 k0 (i % 2 ^ 32) h0 c k (Or.inl hprov)

theorem buildIndex_complete (es : List (Crc × List Nat))
    (h32 : es.length ≤ 2 ^ 32) :
    EsComplete es (buildIndex es) := by
  refine esComplete_go es es 0 [] (by omega) ?_ ?_
  · intro j b hj
    simpa using hj
  · intro c k hck
    left
    exact hck

theorem listChunks_length_le {α : Type} (n : Nat) (hn : 1 ≤ n) (l : List α) :
    (listChunks n l).length ≤ l.length := by
  have hgen : ∀ (m : Nat) (l : List α), l.length ≤ m →
      (listChunks n l).length ≤ l.length := by
    intro m
    induction m with
    | zero =>
      intro l hl
      have h0 : l = [] := List.length_eq_zero.mp (by omega)
      subst h0
      simp [listChunks_nil]
    | succ m ih =>
      intro l hl
      cases l with
      | nil => simp [listChunks_nil]
      | cons x xs =>
        rw [listChunks_cons_eq n _ (by omega) (by simp)]
        simp only [List.length_cons] at hl ⊢
        have hdrop : ((x :: xs).drop n).length ≤ m := by
          simp only [List.length_drop, List.length_cons]
          omega
        have hrec := ih ((x :: xs).drop n) hdrop
        simp only [List.length_drop, List.length_cons] at hrec
        omega
  exact hgen l.length l (le_refl _)

/-! Rolling-checksum value bounds and serialization round-trip. -/

theorem crc_update_bound : ∀ (l : List Nat) (c : Crc), c.s1 < 65536 →
    c.s2 < 65536 → (c.update l).s1 < 65536 ∧ (c.update l).s2 < 65536 := by
  intro l
  induction l with
  | nil => intro c h1 h2; exact ⟨h1, h2⟩
  | cons b t ih =>
    intro c h1 h2
    simp only [Crc.update, List.foldl_cons] at *
    exact ih _ (Nat.mod_lt _ (by norm_num)) (Nat.mod_lt _ (by norm_num))

theorem crc_new_update_bound (l : List Nat) :
    (Crc.new.update l).s1 < 65536 ∧ (Crc.new.update l).s2 < 65536 :=
  crc_update_bound l Crc.new (by simp [Crc.new]) (by simp [Crc.new])

theorem crc_fromBytes_toBytes (c : Crc) (h1 : c.s1 < 65536) (h2 : c.s2 < 65536) :
    Crc.fromBytes c.toBytes = c := by
  obtain ⟨s1, s2⟩ := c
  simp only [Crc.toBytes, Crc.fromBytes] at *
  rw [beVal_beBytes]
  · simp only [Crc.mk.injEq]
    omega
  · have h4 : (256 : Nat) ^ 4 = 4294967296 := by norm_num
    omega

theorem crc_roundtrip_update (l : List Nat) :
    Crc.fromBytes (Crc.new.update l).toBytes = Crc.new.update l :=
  crc_fromBytes_toBytes _ (crc_new_update_bound l).1 (crc_new_update_bound l).2

/-! Parsing the calculated signature back into records. -/

theorem toBytes_length (c : Crc) : c.toBytes.length = 4 := by
  simp [Crc.toBytes, beBytes_length]

theorem drop_header (a b c d : List Nat) (ha : a.length = 4) (hb : b.length = 4)
    (hc : c.length = 4) : (a ++ b ++ c ++ d).drop 12 = d := by
  rw [show (a ++ b ++ c ++ d) = (a ++ b ++ c) ++ d by simp [List.append_assoc]]
  rw [List.drop_left']
  simp [ha, hb, hc]

theorem toMagic_length (ty : SignatureType) : ty.toMagic.length = 4 := by
  cases ty <;> simp [SignatureType.toMagic, beBytes_length]

theorem calculate_some (env : HashEnv) (buf : List Nat)
    (opts : SignatureOptions) (s : Signature)
    (hcalc : Signature.calculate? env buf opts = some s) :
    opts.block_size ≠ 0 ∧
      opts.crypto_hash_size ≤ opts.hash_algorithm.maxHashSize ∧
      s = { signature_type := opts.hash_algorithm.toSignatureType
            block_size := opts.block_size
            crypto_hash_size := opts.crypto_hash_size
            signature :=
              opts.hash_algorithm.toSignatureType.toMagic ++
                beBytes 4 opts.block_size ++ beBytes 4 opts.crypto_hash_size ++
                sigBody (env.hashFor opts.hash_algorithm) opts.crypto_hash_size
                  (listChunks opts.block_size buf) } := by
  rw [Signature.calculate?] at hcalc
  split_ifs at hcalc with hbs hmax
  refine ⟨hbs, by omega, ?_⟩
  injection hcalc with hcalc
  rw [← hcalc]

theorem blocksList_calculate (env : HashEnv) (buf : List Nat)
    (opts : SignatureOptions) (s : Signature)
    (hcalc : Signature.calculate? env buf opts = some s)
    (hlen : ∀ b, opts.crypto_hash_size ≤ ((env.hashFor opts.hash_algorithm) b).length) :
    s.blocksList = (listChunks opts.block_size buf).map
      (fun b => (Crc.new.update b,
        ((env.hashFor opts.hash_algorithm) b).take opts.crypto_hash_size)) := by
  obtain ⟨hbs, hmax, hs⟩ := calculate_some env buf opts s hcalc
  subst hs
  rw [Signature.blocksList]
  simp only
  rw [drop_header _ _ _ _ (toMagic_length _) (beBytes_length 4 _) (beBytes_length 4 _)]
  rw [sigBody]
  rw [listChunks_flatten (Crc.SIZE + opts.crypto_hash_size)
    (by simp only [Crc.SIZE]; omega)]
  · rw [List.map_map]
    have hfun : ∀ b : List Nat,
        ((fun r : List Nat => (Crc.fromBytes (r.take 4), r.drop 4)) ∘
          (fun b => (Crc.new.update b).toBytes ++
            ((env.hashFor opts.hash_algorithm) b).take opts.crypto_hash_size)) b =
        (Crc.new.update b,
          ((env.hashFor opts.hash_algorithm) b).take opts.crypto_hash_size) := by
      intro b
      simp only [Function.comp_apply]
      rw [List.take_left' (toBytes_length _), List.drop_left' (toBytes_length _),
        crc_roundtrip_update]
    exact List.map_congr_left fun b _ => hfun b
  · intro r hr
    simp only [List.mem_map] at hr
    obtain ⟨b, _, hb⟩ := hr
    rw [← hb]
    simp only [List.length_append, toBytes_length, List.length_take, Crc.SIZE]
    have := hlen b
    omega

/-! Decoding lemmas for the applier. -/

theorem u64SizeClass_le3 (v : Nat) : u64SizeClass v ≤ 3 := by
  rw [u64SizeClass]
  split_ifs <;> norm_num

theorem val_lt_sizeClass (v : Nat) (h : v < 2 ^ 64) :
    v < 256 ^ 2 ^ u64SizeClass v := by
  rw [u64SizeClass]
  split_ifs with h1 h2 h3 <;> norm_num <;> omega

theorem lengthDropLe {α : Type} (n : Nat) (l : List α) :
    (l.drop n).length ≤ l.length := by
  rw [List.length_drop]
  exact Nat.sub_le _ _

theorem applyGo_mono (base : List Nat) (f1 f2 : Nat) (d acc : List Nat)
    (h1 : d.length < f1) (h2 : d.length < f2) :
    applyGo base f1 d acc = applyGo base f2 d acc := by
  induction f1 generalizing f2 d acc with
  | zero => exact absurd h1 (Nat.not_lt_zero _)
  | succ f1 ih =>
    cases f2 with
    | zero => exact absurd h2 (Nat.not_lt_zero _)
    | succ f2 =>
      cases d with
      | nil => rfl
      | cons op rest =>
        have hr1 : rest.length < f1 := by
          simp only [List.length_cons] at h1
          omega
        have hr2 : rest.length < f2 := by
          simp only [List.length_cons] at h2
          omega
        simp only [applyGo]
        split_ifs <;>
          first
            | rfl
            | (apply ih <;>
                first
                  | exact lt_of_le_of_lt (lengthDropLe _ _) hr1
                  | exact lt_of_le_of_lt (lengthDropLe _ _) hr2
                  | exact lt_of_le_of_lt
                      (le_trans (lengthDropLe _ _) (lengthDropLe _ _)) hr1
                  | exact lt_of_le_of_lt
                      (le_trans (lengthDropLe _ _) (lengthDropLe _ _)) hr2)

theorem beBytes_one (v : Nat) (h : v ≤ 255) : beBytes 1 v = [v] := by
  simp [beBytes, Nat.mod_eq_of_lt (by omega : v < 256)]

theorem applyGo_step_end (base acc tail : List Nat) (f : Nat) :
    applyGo base (f + 1) (RS_OP_END :: tail) acc = .ok acc := by
  simp only [applyGo]
  rw [if_pos trivial]

theorem applyGo_step_lit1 (base acc tail : List Nat) (L f : Nat)
    (h1 : 1 ≤ L) (h64 : L ≤ 64) :
    applyGo base (f + 1) (L :: tail) acc =
      if tail.length < L then .error .unexpectedEof
      else applyGo base f (tail.drop L) (acc ++ tail.take L) := by
  simp only [applyGo]
  rw [if_neg (show ¬ L = RS_OP_END by simp only [RS_OP_END]; omega),
    if_pos h64]

theorem applyGo_step_litN (base acc tail : List Nat) (e w L f opn : Nat)
    (he : e ≤ 3) (hopn : opn = RS_OP_LITERAL_N1 + e) (hw : w = 2 ^ e)
    (hL : L < 256 ^ w) :
    applyGo base (f + 1) (opn :: (beBytes w L ++ tail)) acc =
      if tail.length < L then .error .unexpectedEof
      else applyGo base f (tail.drop L) (acc ++ tail.take L) := by
  subst hopn
  subst hw
  simp only [applyGo]
  rw [if_neg (show ¬ RS_OP_LITERAL_N1 + e = RS_OP_END by
      simp only [RS_OP_LITERAL_N1, RS_OP_END]; omega),
    if_neg (show ¬ RS_OP_LITERAL_N1 + e ≤ 64 by
      simp only [RS_OP_LITERAL_N1]; omega),
    if_pos (show RS_OP_LITERAL_N1 ≤ RS_OP_LITERAL_N1 + e ∧
        RS_OP_LITERAL_N1 + e ≤ RS_OP_LITERAL_N8 by
      simp only [RS_OP_LITERAL_N1, RS_OP_LITERAL_N8]
      omega)]
  rw [show RS_OP_LITERAL_N1 + e - RS_OP_LITERAL_N1 = e by
    simp only [RS_OP_LITERAL_N1]; omega]
  have hwlen : (beBytes (2 ^ e) L).length = 2 ^ e := beBytes_length _ _
  rw [if_neg (show ¬ (beBytes (2 ^ e) L ++ tail).length < 2 ^ e by
      simp only [List.length_append, hwlen]; omega)]
  rw [List.take_left' hwlen, List.drop_left' hwlen, beVal_beBytes _ _ hL]

theorem applyGo_step_copy (base acc tail : List Nat)
    (ex ey wo wl off len f : Nat) (hex : ex ≤ 3) (hey : ey ≤ 3)
    (hwo : wo = 2 ^ ex) (hwl : wl = 2 ^ ey)
    (hoff : off < 256 ^ wo) (hlen : len < 256 ^ wl) :
    applyGo base (f + 1)
      ((RS_OP_COPY_N1_N1 + ex * 4 + ey) ::
        (beBytes wo off ++ (beBytes wl len ++ tail))) acc =
      if base.length < off + len then .error .outOfBounds
      else applyGo base f tail (acc ++ (base.drop off).take len) := by
  subst hwo
  subst hwl
  simp only [applyGo]
  rw [if_neg (show ¬ RS_OP_COPY_N1_N1 + ex * 4 + ey = RS_OP_END by
      simp only [RS_OP_COPY_N1_N1, RS_OP_END]; omega),
    if_neg (show ¬ RS_OP_COPY_N1_N1 + ex * 4 + ey ≤ 64 by
      simp only [RS_OP_COPY_N1_N1]; omega),
    if_neg (show ¬ (RS_OP_LITERAL_N1 ≤ RS_OP_COPY_N1_N1 + ex * 4 + ey ∧
        RS_OP_COPY_N1_N1 + ex * 4 + ey ≤ RS_OP_LITERAL_N8) by
      simp only [RS_OP_LITERAL_N1, RS_OP_LITERAL_N8, RS_OP_COPY_N1_N1]
      omega),
    if_pos (show RS_OP_COPY_N1_N1 ≤ RS_OP_COPY_N1_N1 + ex * 4 + ey ∧
        RS_OP_COPY_N1_N1 + ex * 4 + ey ≤ 0x54 by
      simp only [RS_OP_COPY_N1_N1]
      omega)]
  rw [show RS_OP_COPY_N1_N1 + ex * 4 + ey - RS_OP_COPY_N1_N1 = ex * 4 + ey by
    simp only [RS_OP_COPY_N1_N1]; omega]
  rw [show (ex * 4 + ey) / 4 = ex by omega, show (ex * 4 + ey) % 4 = ey by omega]
  have hwo : (beBytes (2 ^ ex) off).length = 2 ^ ex := beBytes_length _ _
  have hwl : (beBytes (2 ^ ey) len).length = 2 ^ ey := beBytes_length _ _
  rw [if_neg (show ¬ (beBytes (2 ^ ex) off ++ (beBytes (2 ^ ey) len ++ tail)).length <
      2 ^ ex + 2 ^ ey by
    simp only [List.length_append, hwo, hwl]; omega)]
  rw [List.take_left' hwo, List.drop_left' hwo, List.take_left' hwl,
    beVal_beBytes _ _ hoff, beVal_beBytes _ _ hlen]
  rw [show beBytes (2 ^ ex) off ++ (beBytes (2 ^ ey) len ++ tail) =
      (beBytes (2 ^ ex) off ++ beBytes (2 ^ ey) len) ++ tail by
    rw [List.append_assoc]]
  rw [List.drop_left' (by simp only [List.length_append, hwo, hwl])]

theorem applyLoop_insert (base payload rest acc : List Nat) (L : Nat)
    (hL1 : 1 ≤ L) (hL2 : L < 2 ^ 64) (hp : payload.length = L) :
    applyLoop base (insert_command L ++ payload ++ rest) acc =
      applyLoop base rest (acc ++ payload) := by
  have hnl : ¬ (payload ++ rest).length < L := by
    simp [List.length_append, hp]
  simp only [applyLoop]
  rw [List.append_assoc, insert_command]
  split_ifs with h1 h2 h3 h4
  · have hop : RS_OP_LITERAL_1 + (L - 1) = L := by
      simp only [RS_OP_LITERAL_1]
      omega
    rw [hop]
    simp only [List.cons_append, List.nil_append]
    rw [applyGo_step_lit1 base acc (payload ++ rest) L _ hL1 h1, if_neg hnl]
    rw [← hp, List.take_left, List.drop_left]
    exact applyGo_mono base _ _ _ _
      (by simp only [List.length_cons, List.length_append]; omega) (by omega)
  · rw [show ([RS_OP_LITERAL_N1, L] : List Nat) ++ (payload ++ rest) =
      RS_OP_LITERAL_N1 :: (beBytes 1 L ++ (payload ++ rest)) by
        rw [beBytes_one L (by omega)]; rfl]
    rw [applyGo_step_litN base acc (payload ++ rest) 0 1 L _ RS_OP_LITERAL_N1
      (by omega) (by simp [RS_OP_LITERAL_N1]) (by norm_num) (by norm_num; omega)]
    rw [if_neg hnl, ← hp, List.take_left, List.drop_left]
    exact applyGo_mono base _ _ _ _
      (by simp only [List.length_cons, List.length_append, beBytes_length]; omega)
      (by omega)
  · rw [show (RS_OP_LITERAL_N2 :: beBytes 2 L) ++ (payload ++ rest) =
      RS_OP_LITERAL_N2 :: (beBytes 2 L ++ (payload ++ rest)) by rfl]
    rw [applyGo_step_litN base acc (payload ++ rest) 1 2 L _ RS_OP_LITERAL_N2
      (by omega) (by simp [RS_OP_LITERAL_N1, RS_OP_LITERAL_N2]) (by norm_num)
      (by norm_num; omega)]
    rw [if_neg hnl, ← hp, List.take_left, List.drop_left]
    exact applyGo_mono base _ _ _ _
      (by simp only [List.length_cons, List.length_append, beBytes_length]; omega)
      (by omega)
  · rw [show (RS_OP_LITERAL_N4 :: beBytes 4 L) ++ (payload ++ rest) =
      RS_OP_LITERAL_N4 :: (beBytes 4 L ++ (payload ++ rest)) by rfl]
    rw [applyGo_step_litN base acc (payload ++ rest) 2 4 L _ RS_OP_LITERAL_N4
      (by omega) (by simp [RS_OP_LITERAL_N1, RS_OP_LITERAL_N4]) (by norm_num)
      (by norm_num; omega)]
    rw [if_neg hnl, ← hp, List.take_left, List.drop_left]
    exact applyGo_mono base _ _ _ _
      (by simp only [List.length_cons, List.length_append, beBytes_length]; omega)
      (by omega)
  · rw [show (RS_OP_LITERAL_N8 :: beBytes 8 L) ++ (payload ++ rest) =
      RS_OP_LITERAL_N8 :: (beBytes 8 L ++ (payload ++ rest)) by rfl]
    rw [applyGo_step_litN base acc (payload ++ rest) 3 8 L _ RS_OP_LITERAL_N8
      (by omega) (by simp [RS_OP_LITERAL_N1, RS_OP_LITERAL_N8]) (by norm_num)
      (by norm_num; omega)]
    rw [if_neg hnl, ← hp, List.take_left, List.drop_left]
    exact applyGo_mono base _ _ _ _
      (by simp only [List.length_cons, List.length_append, beBytes_length]; omega)
      (by omega)

theorem applyLoop_copy (base rest acc : List Nat) (off len : Nat)
    (hb : off + len ≤ base.length) (hb64 : base.length < 2 ^ 64) :
    applyLoop base (copy_command off len ++ rest) acc =
      applyLoop base rest (acc ++ (base.drop off).take len) := by
  have hoff64 : off < 2 ^ 64 := by omega
  have hlen64 : len < 2 ^ 64 := by omega
  simp only [applyLoop, copy_command, writeVarint]
  simp only [List.cons_append, List.append_assoc]
  rw [applyGo_step_copy base acc rest (u64SizeClass off) (u64SizeClass len)
    _ _ off len _ (u64SizeClass_le3 off) (u64SizeClass_le3 len) rfl rfl
    (val_lt_sizeClass off hoff64) (val_lt_sizeClass len hlen64)]
  rw [if_neg (show ¬ base.length < off + len by omega)]
  exact applyGo_mono base _ _ _ _
    (by
      have hA : 0 < 2 ^ u64SizeClass off := pow_pos (by norm_num) _
      have hB : 0 < 2 ^ u64SizeClass len := pow_pos (by norm_num) _
      simp only [List.length_cons, List.length_append, beBytes_length]
      omega)
    (by omega)

theorem applyLoop_end (base acc tail : List Nat) :
    applyLoop base (RS_OP_END :: tail) acc = .ok acc := by
  simp only [applyLoop]
  exact applyGo_step_end base acc tail _

theorem produces_nil (base : List Nat) : Produces base [] [] := by
  intro rest acc
  simp

theorem produces_append (base o1 o2 s1 s2 : List Nat)
    (h1 : Produces base o1 s1) (h2 : Produces base o2 s2) :
    Produces base (o1 ++ o2) (s1 ++ s2) := by
  intro rest acc
  rw [List.append_assoc, h1 (o2 ++ rest) acc, h2 rest (acc ++ s1),
    List.append_assoc]

theorem produces_lit (base payload : List Nat) (h1 : 1 ≤ payload.length)
    (h2 : payload.length < 2 ^ 64) :
    Produces base (insert_command payload.length ++ payload) payload := by
  intro rest acc
  exact applyLoop_insert base payload rest acc payload.length h1 h2 rfl

theorem produces_copy (base : List Nat) (off len : Nat)
    (hb : off + len ≤ base.length) (hb64 : base.length < 2 ^ 64) :
    Produces base (copy_command off len) ((base.drop off).take len) := by
  intro rest acc
  exact applyLoop_copy base rest acc off len hb hb64

end SuperfastRsync

namespace SuperfastRsync

/-! Slice-concatenation lemmas. -/

theorem take_add_drop {α : Type} (l : List α) (a m k : Nat) :
    (l.drop a).take (m + k) = (l.drop a).take m ++ (l.drop (a + m)).take k := by
  have hdd : (l.drop a).drop m = l.drop (a + m) := by
    rw [List.drop_drop]
    try congr 1
    try omega
  rw [List.take_add, hdd]

theorem drop_eq_take_append {α : Type} (l : List α) (a b : Nat) (hab : a ≤ b) :
    (l.drop a).take (b - a) ++ l.drop b = l.drop a := by
  have hd : l.drop b = (l.drop a).drop (b - a) := by
    rw [List.drop_drop]
    congr 1
    omega
  rw [hd, List.take_append_drop]

/-! Output-state lemmas: `emit` and `copy`. -/

theorem emit_spec (base data : List Nat) (st : OutputState) (untl : Nat)
    (hst : StInv base data st untl) (hu : untl ≤ data.length)
    (hd64 : data.length < 2 ^ 64) (hb64 : base.length < 2 ^ 64) :
    Produces base (st.emit untl data).2.1
        ((data.drop st.emitted).take (untl - st.emitted)) ∧
      (st.emit untl data).1.emitted = untl ∧
      (st.emit untl data).1.queued_copy = st.queued_copy ∧
      (∀ l, Ev.lit l ∈ (st.emit untl data).2.2 → 1 ≤ l) := by
  obtain ⟨em, q⟩ := st
  cases q with
  | none =>
    simp only [StInv] at hst
    by_cases he : em = untl
    · subst he
      simp only [OutputState.emit, if_pos rfl]
      refine ⟨?_, rfl, rfl, by simp⟩
      simpa using produces_nil base
    · simp only [OutputState.emit, if_neg he]
      have hlt : em < untl := by omega
      rw [if_pos hlt]
      have htl : ((data.drop em).take (untl - em)).length = untl - em := by
        simp only [List.length_take, List.length_drop]
        omega
      refine ⟨?_, rfl, rfl, ?_⟩
      · simp only [List.nil_append]
        exact produces_lit base ((data.drop em).take (untl - em))
          (by rw [htl]; omega) (by rw [htl]; omega)
      · intro l hl
        simp only [List.mem_singleton] at hl
        injection hl with hl
        omega
  | some p =>
    obtain ⟨off, len⟩ := p
    simp only [StInv] at hst
    obtain ⟨hql, hqe, hqb, hqc⟩ := hst
    have he : ¬ em = untl := by omega
    simp only [OutputState.emit, if_neg he]
    by_cases hp : em + len < untl
    · rw [if_pos hp]
      have htl : ((data.drop (em + len)).take (untl - (em + len))).length =
          untl - (em + len) := by
        simp only [List.length_take, List.length_drop]
        omega
      refine ⟨?_, rfl, rfl, ?_⟩
      · have hc := produces_copy base off len hqb hb64
        rw [hqc] at hc
        have hlit := produces_lit base
          ((data.drop (em + len)).take (untl - (em + len)))
          (by rw [htl]; omega) (by rw [htl]; omega)
        have hap := produces_append base _ _ _ _ hc hlit
        dsimp only
        rw [show untl - em = len + (untl - (em + len)) by omega, take_add_drop,
          List.append_assoc]
        exact hap
      · intro l hl
        simp only [List.mem_singleton] at hl
        injection hl with hl
        omega
    · rw [if_neg hp]
      have hpe : em + len = untl := by omega
      refine ⟨?_, hpe, rfl, by simp⟩
      have hc := produces_copy base off len hqb hb64
      rw [hqc] at hc
      rw [show untl - em = len by omega]
      exact hc

theorem copy_spec (base data : List Nat) (st : OutputState) (off len0 here : Nat)
    (hst : StInv base data st here) (hh : here + len0 ≤ data.length)
    (hl : 1 ≤ len0) (hb : off + len0 ≤ base.length)
    (hmatch : (base.drop off).take len0 = (data.drop here).take len0)
    (hd64 : data.length < 2 ^ 64) (hb64 : base.length < 2 ^ 64) :
    Produces base (st.copy off len0 here data).2.1
        ((data.drop st.emitted).take
          ((st.copy off len0 here data).1.emitted - st.emitted)) ∧
      st.emitted ≤ (st.copy off len0 here data).1.emitted ∧
      StInv base data (st.copy off len0 here data).1 (here + len0) ∧
      (∀ l, Ev.lit l ∈ (st.copy off len0 here data).2.2 → 1 ≤ l) := by
  obtain ⟨em, q⟩ := st
  cases q with
  | none =>
    have hem : em ≤ here := by simpa only [StInv] using hst
    obtain ⟨hP, hE, hQ, hL⟩ := emit_spec base data ⟨em, none⟩ here hst
      (by omega) hd64 hb64
    simp only [OutputState.copy]
    refine ⟨?_, ?_, ?_, hL⟩
    · simp only [hE]
      exact hP
    · simp only [hE]
      exact hem
    · simp only [StInv, hE]
      exact ⟨hl, by omega, hb, by rw [hmatch]⟩
  | some p =>
    obtain ⟨qoff, qlen⟩ := p
    have hst0 := hst
    simp only [StInv] at hst0
    obtain ⟨hql, hqe, hqb, hqc⟩ := hst0
    simp only [OutputState.copy]
    by_cases hco : em + qlen = here ∧ qoff + qlen = off
    · rw [if_pos hco]
      refine ⟨?_, le_refl _, ?_, by simp⟩
    
      · simpa using produces_nil base
      · simp only [StInv]
        refine ⟨by omega, by omega, by omega, ?_⟩
        rw [take_add_drop base qoff qlen len0, take_add_drop data em qlen len0,
          hqc, hco.1, hco.2, hmatch]
    · rw [if_neg hco]
      obtain ⟨hP, hE, hQ, hL⟩ := emit_spec base data ⟨em, some (qoff, qlen)⟩ here hst
        (by omega) hd64 hb64
      refine ⟨?_, ?_, ?_, hL⟩
      · simp only [hE]
        exact hP
      · simp only [hE]
        omega
      · simp only [StInv, hE]
        exact ⟨hl, by omega, hb, by rw [hmatch]⟩

theorem diffTail_spec (base data : List Nat) (st : OutputState)
    (hst : StInv base data st data.length)
    (hd64 : data.length < 2 ^ 64) (hb64 : base.length < 2 ^ 64) :
    (∀ acc, applyLoop base (diffTail st data).1 acc =
      .ok (acc ++ data.drop st.emitted)) ∧
    (∀ l, Ev.lit l ∈ (diffTail st data).2 → 1 ≤ l) := by
  obtain ⟨hP, hE, hQ, hL⟩ := emit_spec base data st data.length hst
    (le_refl _) hd64 hb64
  refine ⟨?_, hL⟩
  intro acc
  have hsl : (data.drop st.emitted).take (data.length - st.emitted) =
      data.drop st.emitted := by
    have : (data.drop st.emitted).length = data.length - st.emitted := by
      simp [List.length_drop]
    rw [← this, List.take_length]
  rw [diffTail]
  simp only
  rw [hP [RS_OP_END] acc, hsl]
  exact applyLoop_end base (acc ++ data.drop st.emitted) []

end SuperfastRsync

namespace SuperfastRsync

theorem stInv_mono (base data : List Nat) (st : OutputState) (p q : Nat)
    (hst : StInv base data st p) (hpq : p ≤ q) : StInv base data st q := by
  obtain ⟨em, qc⟩ := st
  cases qc with
  | none => simp only [StInv] at *; omega
  | some pr =>
    obtain ⟨off, len⟩ := pr
    simp only [StInv] at *
    exact ⟨hst.1, by omega, hst.2.2⟩

theorem diffGo_spec (env : HashEnv) (ty : SignatureType) (bs n : Nat)
    (blocks : List (Crc × List (List Nat × Nat))) (base data : List Nat)
    (H : List Nat → List Nat)
    (hty : ∀ w, ty.digest? env w = some (H w))
    (hsound : IdxSound H n (listChunks bs base) blocks)
    (hinj : ∀ x y, (H x).take n = (H y).take n → x = y)
    (hbs : 1 ≤ bs) (hd64 : data.length < 2 ^ 64) (hb64 : base.length < 2 ^ 64) :
    ∀ fuel here crc coll st,
      here + bs ≤ data.length →
      data.length < fuel + here →
      StInv base data st here →
      ∃ out evs,
        diffGo env ty bs n blocks data fuel here crc coll st = .done out evs ∧
        (∀ acc, applyLoop base out acc = .ok (acc ++ data.drop st.emitted)) ∧
        (∀ l, Ev.lit l ∈ evs → 1 ≤ l) := by
  intro fuel
  induction fuel with
  | zero =>
    intro here crc coll st hhb hfu hst
    omega
  | succ fuel ih =>
    intro here crc coll st hhb hfu hst
    have hhere : here ≤ data.length := by omega
    by_cases hco : collOk coll crc = true
    · cases hmap : crcMapGet blocks crc with
      | some slm =>
        cases hsl : slmGet slm (((H ((data.drop here).take bs))).take n) with
        | some idx =>
          -- a strong-hash hit: a genuine match under the injectivity hypothesis
          obtain ⟨b, hbchunk, hkey⟩ := hsound crc _ idx slm hmap hsl
          have hbw : b = (data.drop here).take bs := hinj _ _ hkey.symm
          have hbdef := listChunks_get bs hbs base idx b hbchunk
          have hwlen : ((data.drop here).take bs).length = bs := by
            simp only [List.length_take, List.length_drop]
            omega
          have hblen : (base.drop (idx * bs)).take bs = (data.drop here).take bs := by
            rw [← hbdef.1, hbw]
          have hbound : idx * bs + bs ≤ base.length := by
            have : ((base.drop (idx * bs)).take bs).length = bs := by
              rw [hblen, hwlen]
            simp only [List.length_take, List.length_drop] at this
            omega
          obtain ⟨hcP, hcLe, hcInv, hcLit⟩ :=
            copy_spec base data st (idx * bs) bs here hst hhb hbs
              (by omega) hblen hd64 hb64
          by_cases houter : bs + (here + bs) ≤ data.length
          · obtain ⟨out2, evs2, heq2, happ2, hlit2⟩ :=
              ih (here + bs) (Crc.new.update ((data.drop (here + bs)).take bs))
                coll (st.copy (idx * bs) bs here data).1
                (by omega) (by omega) hcInv
            refine ⟨(st.copy (idx * bs) bs here data).2.1 ++ out2,
              Ev.hash crc true :: ((st.copy (idx * bs) bs here data).2.2 ++ evs2),
              ?_, ?_, ?_⟩
            · simp only [diffGo]
              rw [if_pos hco, hmap]
              dsimp only
              rw [hty]
              dsimp only
              rw [hsl]
              dsimp only
              rw [if_pos houter, heq2]
              simp [DiffOut.consOut, DiffOut.consEvs]
            · intro acc
              rw [hcP out2 acc, happ2, List.append_assoc,
                drop_eq_take_append data st.emitted
                  ((st.copy (idx * bs) bs here data).1.emitted) hcLe]
            · intro l hl
              simp only [List.mem_cons, List.mem_append] at hl
              rcases hl with hl | hl | hl
              · exact absurd hl (by simp)
              · exact hcLit l hl
              · exact hlit2 l hl
          · have hcInv2 : StInv base data (st.copy (idx * bs) bs here data).1
                data.length :=
              stInv_mono base data _ _ _ hcInv (by omega)
            obtain ⟨htApp, htLit⟩ :=
              diffTail_spec base data (st.copy (idx * bs) bs here data).1
                hcInv2 hd64 hb64
            refine ⟨(st.copy (idx * bs) bs here data).2.1 ++
                (diffTail (st.copy (idx * bs) bs here data).1 data).1,
              Ev.hash crc true :: ((st.copy (idx * bs) bs here data).2.2 ++
                (diffTail (st.copy (idx * bs) bs here data).1 data).2),
              ?_, ?_, ?_⟩
            · simp only [diffGo]
              rw [if_pos hco, hmap]
              dsimp only
              rw [hty]
              dsimp only
              rw [hsl]
              dsimp only
              rw [if_neg houter]
            · intro acc
              rw [hcP _ acc, htApp, List.append_assoc,
                drop_eq_take_append data st.emitted
                  ((st.copy (idx * bs) bs here data).1.emitted) hcLe]
            · intro l hl
              simp only [List.mem_cons, List.mem_append] at hl
              rcases hl with hl | hl | hl
              · exact absurd hl (by simp)
              · exact hcLit l hl
              · exact htLit l hl
        | none =>
          -- collision: the CRC hit but the strong hash missed; advance one byte
          by_cases hend : data.length < here + 1 + bs
          · obtain ⟨htApp, htLit⟩ := diffTail_spec base data st
              (stInv_mono base data st here data.length hst hhere) hd64 hb64
            refine ⟨(diffTail st data).1,
              Ev.hash crc false :: (diffTail st data).2, ?_, ?_, ?_⟩
            · simp only [diffGo]
              rw [if_pos hco, hmap]
              dsimp only
              rw [hty]
              dsimp only
              rw [hsl]
              dsimp only
              rw [if_pos hend]
            · exact htApp
            · intro l hl
              simp only [List.mem_cons] at hl
              rcases hl with hl | hl
              · exact absurd hl (by simp)
              · exact htLit l hl
          · obtain ⟨out2, evs2, heq2, happ2, hlit2⟩ :=
              ih (here + 1)
                (crc.rotate bs (data.getD (here + 1 - 1) 0)
                  (data.getD (here + 1 + bs - 1) 0))
                (collIncr coll crc) st (by omega) (by omega)
                (stInv_mono base data st here (here + 1) hst (by omega))
            refine ⟨out2, Ev.hash crc false :: evs2, ?_, happ2, ?_⟩
            · simp only [diffGo]
              rw [if_pos hco, hmap]
              dsimp only
              rw [hty]
              dsimp only
              rw [hsl]
              dsimp only
              rw [if_neg hend, heq2]
              simp [DiffOut.consEvs]
            · intro l hl
              simp only [List.mem_cons] at hl
              rcases hl with hl | hl
              · exact absurd hl (by simp)
              · exact hlit2 l hl
      | none =>
        by_cases hend : data.length < here + 1 + bs
        · obtain ⟨htApp, htLit⟩ := diffTail_spec base data st
            (stInv_mono base data st here data.length hst hhere) hd64 hb64
          refine ⟨(diffTail st data).1, (diffTail st data).2, ?_, htApp, htLit⟩
          simp only [diffGo]
          rw [if_pos hco, hmap]
          dsimp only
          rw [if_pos hend]
        · obtain ⟨out2, evs2, heq2, happ2, hlit2⟩ :=
            ih (here + 1)
              (crc.rotate bs (data.getD (here + 1 - 1) 0)
                (data.getD (here + 1 + bs - 1) 0))
              coll st (by omega) (by omega)
              (stInv_mono base data st here (here + 1) hst (by omega))
          refine ⟨out2, evs2, ?_, happ2, hlit2⟩
          simp only [diffGo]
          rw [if_pos hco, hmap]
          dsimp only
          rw [if_neg hend, heq2]
    · by_cases hend : data.length < here + 1 + bs
      · obtain ⟨htApp, htLit⟩ := diffTail_spec base data st
          (stInv_mono base data st here data.length hst hhere) hd64 hb64
        refine ⟨(diffTail st data).1, (diffTail st data).2, ?_, htApp, htLit⟩
        simp only [diffGo]
        rw [if_neg hco, if_pos hend]
      · obtain ⟨out2, evs2, heq2, happ2, hlit2⟩ :=
          ih (here + 1)
            (crc.rotate bs (data.getD (here + 1 - 1) 0)
              (data.getD (here + 1 + bs - 1) 0))
            coll st (by omega) (by omega)
            (stInv_mono base data st here (here + 1) hst (by omega))
        refine ⟨out2, evs2, ?_, happ2, hlit2⟩
        simp only [diffGo]
        rw [if_neg hco, if_neg hend, heq2]

end SuperfastRsync

namespace SuperfastRsync

theorem calcIndex_sound (env : HashEnv) (buf : List Nat)
    (opts : SignatureOptions) (s : Signature)
    (hcalc : Signature.calculate? env buf opts = some s)
    (hlen : ∀ b, opts.crypto_hash_size ≤
      ((env.hashFor opts.hash_algorithm) b).length)
    (hnb : (listChunks opts.block_size buf).length ≤ 2 ^ 32) :
    IdxSound (env.hashFor opts.hash_algorithm) opts.crypto_hash_size
      (listChunks opts.block_size buf) s.index.blocks := by
  have h32 : s.blocksList.length ≤ 2 ^ 32 := by
    rw [blocksList_calculate env buf opts s hcalc hlen]
    simpa using hnb
  intro c k i slm hmg hsg
  have hidx : s.index.blocks = buildIndex s.blocksList := rfl
  rw [hidx] at hmg
  have hes := buildIndex_sound s.blocksList h32 c k i slm hmg hsg
  rw [blocksList_calculate env buf opts s hcalc hlen] at hes
  rw [List.getElem?_map] at hes
  cases hch : (listChunks opts.block_size buf)[i]? with
  | none => rw [hch] at hes; simp at hes
  | some b =>
    rw [hch] at hes
    simp only [Option.map_some', Option.some.injEq, Prod.mk.injEq] at hes
    exact ⟨b, rfl, hes.2.symm⟩

theorem apply_magic (base out : List Nat) :
    apply base (beBytes 4 DELTA_MAGIC ++ out) = applyLoop base out [] := by
  rw [apply]
  have hm : (beBytes 4 DELTA_MAGIC ++ out).take 4 = beBytes 4 DELTA_MAGIC :=
    List.take_left' (beBytes_length _ _)
  rw [if_neg (show ¬ ((beBytes 4 DELTA_MAGIC ++ out).length < 4 ∨
      (beBytes 4 DELTA_MAGIC ++ out).take 4 ≠ beBytes 4 DELTA_MAGIC) by
    push_neg
    constructor
    · simp [List.length_append, beBytes_length]
    · exact hm)]
  rw [List.drop_left' (beBytes_length 4 DELTA_MAGIC)]

theorem preflight_calc (alg : HashAlgorithm) (chs : Nat)
    (hmax : chs ≤ alg.maxHashSize) :
    diffPreflightOk alg.toSignatureType chs = true := by
  cases alg <;>
    simpa [HashAlgorithm.toSignatureType, diffPreflightOk,
      HashAlgorithm.maxHashSize, MD4_SIZE, BLAKE3_SIZE] using hmax

theorem digest_hashFor (env : HashEnv) (alg : HashAlgorithm) (w : List Nat) :
    alg.toSignatureType.digest? env w = some (env.hashFor alg w) := by
  cases alg <;> rfl

theorem diff_apply_roundtrip (env : HashEnv) (base target : List Nat)
    (opts : SignatureOptions) (s : Signature)
    (hcalc : Signature.calculate? env base opts = some s)
    (hlen : ∀ b, opts.crypto_hash_size ≤
      ((env.hashFor opts.hash_algorithm) b).length)
    (hinj : ∀ x y,
      ((env.hashFor opts.hash_algorithm) x).take opts.crypto_hash_size =
        ((env.hashFor opts.hash_algorithm) y).take opts.crypto_hash_size → x = y)
    (hnb : (listChunks opts.block_size base).length ≤ 2 ^ 32)
    (hd64 : target.length < 2 ^ 64) (hb64 : base.length < 2 ^ 64) :
    ∃ delta evs, diff env s.index target = .done delta evs ∧
      apply base delta = .ok target ∧
      (∀ l, Ev.lit l ∈ evs → 1 ≤ l) := by
  obtain ⟨hbs0, hmax, hs⟩ := calculate_some env base opts s hcalc
  have hty : s.index.signature_type = opts.hash_algorithm.toSignatureType := by
    rw [hs]; rfl
  have hbsv : s.index.block_size = opts.block_size := by rw [hs]; rfl
  have hchs : s.index.crypto_hash_size = opts.crypto_hash_size := by
    rw [hs]; rfl
  have hsound := calcIndex_sound env base opts s hcalc hlen hnb
  rw [diff, hty, hbsv, hchs,
    preflight_calc opts.hash_algorithm opts.crypto_hash_size hmax, if_pos rfl]
  by_cases hloop : opts.block_size ≤ target.length
  · rw [if_pos hloop]
    obtain ⟨out, evs, heq, happ, hlit⟩ :=
      diffGo_spec env opts.hash_algorithm.toSignatureType opts.block_size
        opts.crypto_hash_size s.index.blocks base target
        (env.hashFor opts.hash_algorithm)
        (digest_hashFor env opts.hash_algorithm) hsound hinj (by omega) hd64 hb64
        (target.length + 1) 0 (Crc.new.update ((target.drop 0).take opts.block_size))
        [] ⟨0, none⟩ (by omega) (by omega) (by simp [StInv])
    rw [heq]
    refine ⟨beBytes 4 DELTA_MAGIC ++ out, evs, rfl, ?_, hlit⟩
    rw [apply_magic, happ []]
    simp
  · rw [if_neg hloop]
    obtain ⟨htApp, htLit⟩ := diffTail_spec base target ⟨0, none⟩
      (by simp [StInv]) hd64 hb64
    refine ⟨beBytes 4 DELTA_MAGIC ++ (diffTail ⟨0, none⟩ target).1,
      (diffTail ⟨0, none⟩ target).2, rfl, ?_, htLit⟩
    rw [apply_magic, htApp []]
    simp

end SuperfastRsync

namespace SuperfastRsync

theorem stInv_emitted_le (base data : List Nat) (st : OutputState) (p : Nat)
    (hst : StInv base data st p) : st.emitted ≤ p := by
  obtain ⟨em, q⟩ := st
  cases q with
  | none => simpa only [StInv] using hst
  | some pr =>
    obtain ⟨off, len⟩ := pr
    simp only [StInv] at hst
    dsimp only at hst ⊢
    omega

theorem copy_at_emitted (st : OutputState) (off len0 here : Nat)
    (data : List Nat) (hme : st.emitted = here) :
    st.copy off len0 here data = (⟨here, some (off, len0)⟩, [], []) := by
  obtain ⟨em, q⟩ := st
  simp only at hme
  subst hme
  cases q with
  | none =>
    simp [OutputState.copy, OutputState.emit]
  | some pr =>
    obtain ⟨qoff, qlen⟩ := pr
    simp only [OutputState.copy]
    by_cases hco : em + qlen = em ∧ qoff + qlen = off
    · rw [if_pos hco]
      have hq0 : qlen = 0 := by omega
      have hqo : qoff = off := by
        have := hco.2
        omega
      rw [hq0, hqo]
      simp
    · rw [if_neg hco]
      simp [OutputState.emit]

theorem parLookup_some (env : HashEnv) (n bs : Nat)
    (blocks : List (Crc × List (List Nat × Nat))) (data : List Nat)
    (start : Nat) (v : Nat × Nat × Nat) (hsb : start + bs ≤ data.length)
    (h : parLookup env n bs blocks data start = some v) :
    ∃ idx slm, v = (start, idx * bs, bs) ∧
      crcMapGet blocks (Crc.new.update ((data.drop start).take bs)) = some slm ∧
      slmGet slm ((env.blake3 ((data.drop start).take bs)).take n) = some idx := by
  rw [parLookup] at h
  have hen : min (start + bs) data.length = start + bs := by omega
  rw [hen, show start + bs - start = bs by omega] at h
  cases hmg : crcMapGet blocks (Crc.new.update ((data.drop start).take bs)) with
  | none => rw [hmg] at h; simp at h
  | some slm =>
    rw [hmg] at h
    simp only at h
    cases hsg : slmGet slm ((env.blake3 ((data.drop start).take bs)).take n) with
    | none => rw [hsg] at h; simp at h
    | some idx =>
      rw [hsg] at h
      simp only [Option.some.injEq] at h
      exact ⟨idx, slm, h.symm, rfl, hsg⟩

theorem parFold_spec (env : HashEnv) (n bs : Nat)
    (blocks : List (Crc × List (List Nat × Nat))) (base data : List Nat)
    (hsound : IdxSound env.blake3 n (listChunks bs base) blocks)
    (hinj : ∀ x y, (env.blake3 x).take n = (env.blake3 y).take n → x = y)
    (hbs : 1 ≤ bs) (hd64 : data.length < 2 ^ 64) (hb64 : base.length < 2 ^ 64) :
    ∀ cnt s st,
      StInv base data st s →
      s + cnt * bs ≤ data.length ∨ cnt = 0 →
      s ≤ data.length →
      Produces base
          (parFold data st
            ((List.range' s cnt bs).map (parLookup env n bs blocks data))).2.1
          ((data.drop st.emitted).take
            ((parFold data st
              ((List.range' s cnt bs).map (parLookup env n bs blocks data))).1.emitted -
              st.emitted)) ∧
        st.emitted ≤ (parFold data st
          ((List.range' s cnt bs).map (parLookup env n bs blocks data))).1.emitted ∧
        StInv base data (parFold data st
          ((List.range' s cnt bs).map (parLookup env n bs blocks data))).1
          (s + cnt * bs) ∧
        (∀ l, Ev.lit l ∈ (parFold data st
          ((List.range' s cnt bs).map (parLookup env n bs blocks data))).2.2 →
          1 ≤ l) := by
  intro cnt
  induction cnt with
  | zero =>
    intro s st hst _ _
    simp only [List.range', List.map_nil, parFold]
    refine ⟨?_, le_refl _, by simpa using hst, by simp⟩
    simpa using produces_nil base
  | succ cnt ih =>
    intro s st hst hup hsl
    have hsb : s + bs ≤ data.length := by
      rcases hup with hup | hup
      · nlinarith
      · omega
    rw [List.range'_succ, List.map_cons]
    cases hlook : parLookup env n bs blocks data s with
    | none =>
      have harith : s + bs + cnt * bs = s + (cnt + 1) * bs := by ring
      obtain ⟨hP, hLe, hInv, hLit⟩ := ih (s + bs) st
        (stInv_mono base data st s (s + bs) hst (by omega))
        (by rcases hup with hup | hup
            · left; omega
            · left
              nlinarith)
        (by omega)
      rw [harith] at hInv
      exact ⟨by simpa only [parFold] using hP, by simpa only [parFold] using hLe,
        by simpa only [parFold] using hInv, by simpa only [parFold] using hLit⟩
    | some v =>
      obtain ⟨idx, slm, hv, hmg, hsg⟩ :=
        parLookup_some env n bs blocks data s v hsb hlook
      subst hv
      -- the hit names a real block of the base
      obtain ⟨b, hbchunk, hkey⟩ := hsound _ _ idx slm hmg hsg
      have hbw : b = (data.drop s).take bs := hinj _ _ hkey.symm
      have hbdef := listChunks_get bs hbs base idx b hbchunk
      have hwlen : ((data.drop s).take bs).length = bs := by
        simp only [List.length_take, List.length_drop]
        omega
      have hblen : (base.drop (idx * bs)).take bs = (data.drop s).take bs := by
        rw [← hbdef.1, hbw]
      have hbound : idx * bs + bs ≤ base.length := by
        have : ((base.drop (idx * bs)).take bs).length = bs := by
          rw [hblen, hwlen]
        simp only [List.length_take, List.length_drop] at this
        omega
      obtain ⟨heP, heE, heQ, heLit⟩ := emit_spec base data st s hst (by omega)
        hd64 hb64
      have hem := stInv_emitted_le base data st s hst
      have hcopy := copy_at_emitted (st.emit s data).1 (idx * bs) bs s data heE
      have hst2 : StInv base data (⟨s, some (idx * bs, bs)⟩ : OutputState)
          (s + bs) := by
        simp only [StInv]
        exact ⟨hbs, le_refl _, hbound, hblen⟩
      have harith : s + bs + cnt * bs = s + (cnt + 1) * bs := by ring
      obtain ⟨hP, hLe, hInv, hLit⟩ := ih (s + bs)
        ⟨s, some (idx * bs, bs)⟩ hst2
        (by rcases hup with hup | hup
            · left; omega
            · left
              nlinarith)
        (by omega)
      rw [harith] at hInv
      have hLe2 : s ≤ (parFold data ⟨s, some (idx * bs, bs)⟩
          ((List.range' (s + bs) cnt bs).map
            (parLookup env n bs blocks data))).1.emitted := hLe
      simp only [parFold, hcopy]
      refine ⟨?_, by omega, hInv, ?_⟩
      · dsimp only
        simp only [List.append_nil, List.nil_append]
        have hcomb := produces_append base _ _ _ _ heP hP
        dsimp only at hcomb
        have harg : (s - st.emitted) +
            ((parFold data ⟨s, some (idx * bs, bs)⟩
              ((List.range' (s + bs) cnt bs).map
                (parLookup env n bs blocks data))).1.emitted - s) =
            (parFold data ⟨s, some (idx * bs, bs)⟩
              ((List.range' (s + bs) cnt bs).map
                (parLookup env n bs blocks data))).1.emitted - st.emitted := by
          omega
        rw [← harg, take_add_drop data st.emitted,
          show st.emitted + (s - st.emitted) = s by omega]
        exact hcomb
      · intro l hl
        simp only [List.append_nil, List.nil_append, List.mem_append] at hl
        rcases hl with hl | hl
        · exact heLit l hl
        · exact hLit l hl

end SuperfastRsync

namespace SuperfastRsync

theorem diff_parallel_roundtrip (env : HashEnv) (base target : List Nat)
    (bs chs : Nat) (s : Signature)
    (hcalc : Signature.calculate? env base ⟨bs, chs, .blake3⟩ = some s)
    (hlen : ∀ b, chs ≤ (env.blake3 b).length)
    (hinj : ∀ x y, (env.blake3 x).take chs = (env.blake3 y).take chs → x = y)
    (hnb : (listChunks bs base).length ≤ 2 ^ 32)
    (hd64 : target.length < 2 ^ 64) (hb64 : base.length < 2 ^ 64) :
    ∃ delta evs, diff_parallel env s.index target = some (.done delta evs) ∧
      apply base delta = .ok target ∧
      (∀ l, Ev.lit l ∈ evs → 1 ≤ l) := by
  obtain ⟨hbs0, hmax, hs⟩ := calculate_some env base ⟨bs, chs, .blake3⟩ s hcalc
  have hbs0' : ¬ bs = 0 := hbs0
  have hchs32 : ¬ BLAKE3_SIZE < chs := by
    simp only [HashAlgorithm.maxHashSize] at hmax
    omega
  have hsound : IdxSound env.blake3 chs (listChunks bs base) s.index.blocks :=
    calcIndex_sound env base ⟨bs, chs, .blake3⟩ s hcalc hlen hnb
  have hty : s.index.signature_type = .blake3 := by rw [hs]; rfl
  have hbsv : s.index.block_size = bs := by rw [hs]; rfl
  have hchsv : s.index.crypto_hash_size = chs := by rw [hs]; rfl
  rw [diff_parallel, hty, hbsv, hchsv]
  rw [if_neg (show ¬ (SignatureType.blake3 = SignatureType.md4) by simp),
    if_pos rfl, if_neg hchs32, if_neg hbs0']
  have hcntb : (((target.length - (bs - 1)) + bs - 1) / bs) * bs ≤ target.length ∨
      ((target.length - (bs - 1)) + bs - 1) / bs = 0 := by
    by_cases hc : bs - 1 ≤ target.length
    · left
      have h1 : target.length - (bs - 1) + bs - 1 = target.length := by omega
      rw [h1]
      exact Nat.div_mul_le_self _ _
    · right
      have h0 : target.length - (bs - 1) = 0 := by omega
      rw [h0]
      exact Nat.div_eq_of_lt (by omega)
  obtain ⟨hP, hLe, hInv, hLit⟩ := parFold_spec env chs bs s.index.blocks base
    target hsound hinj (by omega) hd64 hb64
    (((target.length - (bs - 1)) + bs - 1) / bs) 0 ⟨0, none⟩
    (by simp [StInv]) (by simpa using hcntb) (by omega)
  have hInv2 : StInv base target (parFold target ⟨0, none⟩
      ((List.range' 0 (((target.length - (bs - 1)) + bs - 1) / bs) bs).map
        (parLookup env chs bs s.index.blocks target))).1 target.length := by
    refine stInv_mono base target _ _ _ hInv ?_
    rcases hcntb with hc | hc
    · omega
    · rw [hc]
      omega
  obtain ⟨heP, heE, heQ, heLit⟩ := emit_spec base target _ target.length hInv2
    (le_refl _) hd64 hb64
  refine ⟨_, _, rfl, ?_, ?_⟩
  · rw [show beBytes 4 DELTA_MAGIC ++
        (parFold target ⟨0, none⟩
          ((List.range' 0 (((target.length - (bs - 1)) + bs - 1) / bs) bs).map
            (parLookup env chs bs s.index.blocks target))).2.1 ++
        ((parFold target ⟨0, none⟩
          ((List.range' 0 (((target.length - (bs - 1)) + bs - 1) / bs) bs).map
            (parLookup env chs bs s.index.blocks target))).1.emit target.length
              target).2.1 ++ [RS_OP_END] =
      beBytes 4 DELTA_MAGIC ++
        ((parFold target ⟨0, none⟩
          ((List.range' 0 (((target.length - (bs - 1)) + bs - 1) / bs) bs).map
            (parLookup env chs bs s.index.blocks target))).2.1 ++
        (((parFold target ⟨0, none⟩
          ((List.range' 0 (((target.length - (bs - 1)) + bs - 1) / bs) bs).map
            (parLookup env chs bs s.index.blocks target))).1.emit target.length
              target).2.1 ++ [RS_OP_END])) by simp [List.append_assoc]]
    rw [apply_magic, hP, heP, List.nil_append]
    have htk : ∀ (l : List Nat) (e : Nat), e ≤ l.length →
        l.take e ++ (l.drop e).take (l.length - e) = l := by
      intro l e he
      have h2 : (l.drop e).take (l.length - e) = l.drop e := by
        rw [show l.length - e = (l.drop e).length by simp [List.length_drop]]
        exact List.take_length _
      rw [h2, List.take_append_drop]
    have hle2 := stInv_emitted_le base target _ _ hInv2
    have hfin : (target.drop 0).take
          ((parFold target ⟨0, none⟩
            ((List.range' 0 (((target.length - (bs - 1)) + bs - 1) / bs) bs).map
              (parLookup env chs bs s.index.blocks target))).1.emitted - 0) ++
        (target.drop ((parFold target ⟨0, none⟩
            ((List.range' 0 (((target.length - (bs - 1)) + bs - 1) / bs) bs).map
              (parLookup env chs bs s.index.blocks target))).1.emitted)).take
          (target.length -
            (parFold target ⟨0, none⟩
              ((List.range' 0 (((target.length - (bs - 1)) + bs - 1) / bs) bs).map
                (parLookup env chs bs s.index.blocks target))).1.emitted) =
        target := by
      rw [List.drop_zero, Nat.sub_zero]
      exact htk target _ hle2
    rw [hfin]
    exact applyLoop_end base target []
  · intro l hl
    simp only [List.mem_append] at hl
    rcases hl with hl | hl
    · exact hLit l hl
    · exact heLit l hl

end SuperfastRsync

namespace SuperfastRsync

theorem collOk_lt (coll : List (Crc × Nat)) (c : Crc)
    (h : collOk coll c = true) : (collGet coll c).getD 0 < MAX_CRC_COLLISIONS := by
  rw [collOk] at h
  cases hg : collGet coll c with
  | none => simp [MAX_CRC_COLLISIONS]
  | some k =>
    rw [hg] at h
    simp only [decide_eq_true_eq] at h
    simpa using h

theorem evGuard_no_hash (c : Crc) (k : Nat) :
    ∀ evs : List Ev, (∀ e ∈ evs, ∀ c0 b, e ≠ Ev.hash c0 b) → EvGuard c k evs := by
  intro evs
  induction evs generalizing k with
  | nil => intro _; trivial
  | cons e t ih =>
    intro h
    cases e with
    | hash c0 b => exact absurd rfl (h _ (by simp) c0 b)
    | lit L =>
      simp only [EvGuard]
      exact ih k (fun e he => h e (by simp [he]))

theorem evGuard_append_no_hash (c : Crc) (k : Nat) (l1 l2 : List Ev)
    (h1 : ∀ e ∈ l1, ∀ c0 b, e ≠ Ev.hash c0 b) (h2 : EvGuard c k l2) :
    EvGuard c k (l1 ++ l2) := by
  induction l1 with
  | nil => simpa using h2
  | cons e t ih =>
    cases e with
    | hash c0 b => exact absurd rfl (h1 _ (by simp) c0 b)
    | lit L =>
      simp only [List.cons_append, EvGuard]
      exact ih (fun e he => h1 e (by simp [he]))

theorem emit_no_hash (st : OutputState) (untl : Nat) (data : List Nat) :
    ∀ e ∈ (st.emit untl data).2.2, ∀ c0 b, e ≠ Ev.hash c0 b := by
  obtain ⟨em, q⟩ := st
  simp only [OutputState.emit]
  split_ifs <;> simp

theorem copy_no_hash (st : OutputState) (off len here : Nat) (data : List Nat) :
    ∀ e ∈ (st.copy off len here data).2.2, ∀ c0 b, e ≠ Ev.hash c0 b := by
  obtain ⟨em, q⟩ := st
  cases q with
  | none =>
    simp only [OutputState.copy]
    exact emit_no_hash ⟨em, none⟩ here data
  | some pr =>
    obtain ⟨qoff, qlen⟩ := pr
    simp only [OutputState.copy]
    split_ifs with hco
    · simp
    · exact emit_no_hash ⟨em, some (qoff, qlen)⟩ here data

theorem diffTail_no_hash (st : OutputState) (data : List Nat) :
    ∀ e ∈ (diffTail st data).2, ∀ c0 b, e ≠ Ev.hash c0 b := by
  rw [diffTail]
  exact emit_no_hash st data.length data

theorem consEvs_evs (es : List Ev) (r : DiffOut) :
    (r.consEvs es).evs = es ++ r.evs := by
  cases r <;> rfl

theorem consOut_evs (o : List Nat) (r : DiffOut) : (r.consOut o).evs = r.evs := by
  cases r <;> rfl

theorem diffGo_evguard (env : HashEnv) (ty : SignatureType) (bs n : Nat)
    (blocks : List (Crc × List (List Nat × Nat))) (data : List Nat) (c : Crc) :
    ∀ fuel here crc coll st,
      EvGuard c ((collGet coll c).getD 0)
        (diffGo env ty bs n blocks data fuel here crc coll st).evs := by
  intro fuel
  induction fuel with
  | zero => intro here crc coll st; trivial
  | succ fuel ih =>
    intro here crc coll st
    simp only [diffGo]
    by_cases hco : collOk coll crc = true
    · rw [if_pos hco]
      cases hmap : crcMapGet blocks crc with
      | some slm =>
        dsimp only
        cases hdig : ty.digest? env ((data.drop here).take bs) with
        | none => exact trivial
        | some digest =>
          dsimp only
          cases hsl : slmGet slm (digest.take n) with
          | some idx =>
            dsimp only
            by_cases houter : bs + (here + bs) ≤ data.length
            · rw [if_pos houter, consEvs_evs, consOut_evs]
              simp only [List.cons_append, EvGuard]
              refine ⟨fun hc => hc ▸ collOk_lt coll crc hco, ?_⟩
              rw [if_neg (by simp : ¬ (crc = c ∧ (true : Bool) = false))]
              exact evGuard_append_no_hash c _ _ _
                (copy_no_hash st (idx * bs) bs here data) (ih _ _ _ _)
            · rw [if_neg houter]
              dsimp only [DiffOut.evs]
              simp only [EvGuard]
              refine ⟨fun hc => hc ▸ collOk_lt coll crc hco, ?_⟩
              rw [if_neg (by simp : ¬ (crc = c ∧ (true : Bool) = false))]
              refine evGuard_append_no_hash c _ _ _
                (copy_no_hash st (idx * bs) bs here data) ?_
              exact evGuard_no_hash c _ _ (diffTail_no_hash _ data)
          | none =>
            dsimp only
            by_cases hend : data.length < here + 1 + bs
            · rw [if_pos hend]
              dsimp only [DiffOut.evs]
              simp only [EvGuard]
              refine ⟨fun hc => hc ▸ collOk_lt coll crc hco, ?_⟩
              split_ifs with hcc
              · exact evGuard_no_hash c _ _ (diffTail_no_hash _ data)
              · exact evGuard_no_hash c _ _ (diffTail_no_hash _ data)
            · rw [if_neg hend, consEvs_evs]
              simp only [List.cons_append, List.nil_append, EvGuard]
              refine ⟨fun hc => hc ▸ collOk_lt coll crc hco, ?_⟩
              have hkey := ih (here + 1)
                (crc.rotate bs (data.getD (here + 1 - 1) 0)
                  (data.getD (here + 1 + bs - 1) 0)) (collIncr coll crc) st
              rw [collGet_incr] at hkey
              by_cases hcc : crc = c
              · rw [if_pos (⟨hcc, trivial⟩ : crc = c ∧ True), hcc]
                rw [if_pos hcc.symm] at hkey
                rw [hcc] at hkey
                simpa using hkey
              · rw [if_neg (fun h => hcc h.1)]
                rw [if_neg (fun hc2 => hcc hc2.symm)] at hkey
                simpa using hkey
      | none =>
        dsimp only
        by_cases hend : data.length < here + 1 + bs
        · rw [if_pos hend]
          exact evGuard_no_hash c _ _ (diffTail_no_hash _ data)
        · rw [if_neg hend]
          exact ih _ _ _ _
    · rw [if_neg hco]
      by_cases hend : data.length < here + 1 + bs
      · rw [if_pos hend]
        exact evGuard_no_hash c _ _ (diffTail_no_hash _ data)
      · rw [if_neg hend]
        exact ih _ _ _ _

theorem evGuard_missCount (c : Crc) :
    ∀ (evs : List Ev) (k : Nat), EvGuard c k evs → k ≤ MAX_CRC_COLLISIONS →
      missCount evs c + k ≤ MAX_CRC_COLLISIONS := by
  intro evs
  induction evs with
  | nil =>
    intro k _ hk
    simpa [missCount] using hk
  | cons e t ih =>
    intro k hg hk
    cases e with
    | hash c0 b =>
      simp only [EvGuard] at hg
      by_cases hcc : c0 = c
      · subst hcc
        have hlt := hg.1 rfl
        cases b with
        | false =>
          have := ih (k + 1) (by simpa using hg.2)
            (by simp only [MAX_CRC_COLLISIONS] at *; omega)
          simp only [missCount, List.filter_cons] at *
          rw [if_pos (by simp)]
          simp only [List.length_cons]
          omega
        | true =>
          have := ih k (by simpa using hg.2) hk
          simp only [missCount, List.filter_cons] at *
          rw [if_neg (by simp)]
          exact this
      · have hg2 : EvGuard c k t := by
          have := hg.2
          rwa [if_neg (by simp [hcc])] at this
        have := ih k hg2 hk
        simp only [missCount, List.filter_cons] at *
        rw [if_neg (by simp [hcc])]
        exact this
    | lit L =>
      simp only [EvGuard] at hg
      have := ih k hg hk
      simp only [missCount, List.filter_cons] at *
      rw [if_neg (by simp)]
      exact this

end SuperfastRsync

namespace SuperfastRsync

theorem diff_evguard (env : HashEnv) (sig : IndexedSignature) (data : List Nat)
    (c : Crc) : EvGuard c 0 (diff env sig data).evs := by
  simp only [diff]
  split_ifs with hpre hbs
  · rw [consOut_evs]
    have := diffGo_evguard env sig.signature_type sig.block_size
      sig.crypto_hash_size sig.blocks data c (data.length + 1) 0
      (Crc.new.update ((data.drop 0).take sig.block_size)) [] ⟨0, none⟩
    simpa [collGet] using this
  · exact evGuard_no_hash c _ _ (diffTail_no_hash _ data)
  · exact trivial

theorem emit_lite (st : OutputState) (untl : Nat) (data : List Nat)
    (hle : st.emitted + queuedLen st ≤ untl) (hu : untl ≤ data.length) :
    (st.emit untl data).1.emitted = untl ∧
      (st.emit untl data).1.queued_copy = st.queued_copy ∧
      (∀ l, Ev.lit l ∈ (st.emit untl data).2.2 → 1 ≤ l) := by
  obtain ⟨em, q⟩ := st
  cases q with
  | none =>
    simp only [queuedLen] at hle
    by_cases he : em = untl
    · subst he
      simp [OutputState.emit]
    · simp only [OutputState.emit, if_neg he]
      have hlt : em < untl := by omega
      rw [if_pos hlt]
      refine ⟨rfl, rfl, ?_⟩
      intro l hl
      simp only [List.mem_singleton] at hl
      injection hl with hl
      subst hl
      simp only [List.length_take, List.length_drop]
      omega
  | some pr =>
    obtain ⟨off, len⟩ := pr
    simp only [queuedLen] at hle
    by_cases he : em = untl
    · subst he
      simp [OutputState.emit]
    · simp only [OutputState.emit, if_neg he]
      by_cases hp : em + len < untl
      · rw [if_pos hp]
        refine ⟨rfl, rfl, ?_⟩
        intro l hl
        simp only [List.mem_singleton] at hl
        injection hl with hl
        subst hl
        simp only [List.length_take, List.length_drop]
        omega
      · rw [if_neg hp]
        refine ⟨by dsimp only; omega, rfl, by simp⟩

theorem copy_lite (st : OutputState) (off len0 here : Nat) (data : List Nat)
    (hle : st.emitted + queuedLen st ≤ here) (hu : here ≤ data.length) :
    (st.copy off len0 here data).1.emitted +
        queuedLen (st.copy off len0 here data).1 ≤ here + len0 ∧
      (∀ l, Ev.lit l ∈ (st.copy off len0 here data).2.2 → 1 ≤ l) := by
  obtain ⟨em, q⟩ := st
  cases q with
  | none =>
    obtain ⟨hE, hQ, hL⟩ := emit_lite ⟨em, none⟩ here data hle hu
    simp only [OutputState.copy]
    refine ⟨?_, hL⟩
    simp only [queuedLen, hE]
    omega
  | some pr =>
    obtain ⟨qoff, qlen⟩ := pr
    simp only [OutputState.copy]
    by_cases hco : em + qlen = here ∧ qoff + qlen = off
    · rw [if_pos hco]
      refine ⟨?_, by simp⟩
      simp only [queuedLen]
      omega
    · rw [if_neg hco]
      obtain ⟨hE, hQ, hL⟩ := emit_lite ⟨em, some (qoff, qlen)⟩ here data hle hu
      refine ⟨?_, hL⟩
      simp only [queuedLen, hE]
      omega

theorem diffTail_lit (st : OutputState) (data : List Nat)
    (hle : st.emitted + queuedLen st ≤ data.length) :
    ∀ l, Ev.lit l ∈ (diffTail st data).2 → 1 ≤ l := by
  obtain ⟨_, _, hL⟩ := emit_lite st data.length data hle (le_refl _)
  rw [diffTail]
  exact hL

theorem diffGo_lit (env : HashEnv) (ty : SignatureType) (bs n : Nat)
    (blocks : List (Crc × List (List Nat × Nat))) (data : List Nat) :
    ∀ fuel here crc coll st,
      st.emitted + queuedLen st ≤ here →
      here + bs ≤ data.length →
      ∀ l, Ev.lit l ∈ (diffGo env ty bs n blocks data fuel here crc coll st).evs →
        1 ≤ l := by
  intro fuel
  induction fuel with
  | zero =>
    intro here crc coll st _ _ l hl
    simp [diffGo, DiffOut.evs] at hl
  | succ fuel ih =>
    intro here crc coll st hle hhb l hl
    rw [diffGo] at hl
    by_cases hco : collOk coll crc = true
    · rw [if_pos hco] at hl
      cases hmap : crcMapGet blocks crc with
      | some slm =>
        rw [hmap] at hl
        dsimp only at hl
        cases hdig : ty.digest? env ((data.drop here).take bs) with
        | none =>
          rw [hdig] at hl
          simp [DiffOut.evs] at hl
        | some digest =>
          rw [hdig] at hl
          dsimp only at hl
          cases hsl : slmGet slm (digest.take n) with
          | some idx =>
            rw [hsl] at hl
            dsimp only at hl
            obtain ⟨hcLite, hcLit⟩ := copy_lite st (idx * bs) bs here data hle
              (by omega)
            by_cases houter : bs + (here + bs) ≤ data.length
            · rw [if_pos houter, consEvs_evs, consOut_evs] at hl
              simp only [List.cons_append, List.mem_cons, List.mem_append] at hl
              rcases hl with hl | hl | hl
              · exact absurd hl (by simp)
              · exact hcLit l hl
              · exact ih (here + bs) _ coll _ hcLite (by omega) l hl
            · rw [if_neg houter] at hl
              dsimp only [DiffOut.evs] at hl
              simp only [List.mem_cons, List.mem_append] at hl
              rcases hl with hl | hl | hl
              · exact absurd hl (by simp)
              · exact hcLit l hl
              · exact diffTail_lit _ data (by omega) l hl
          | none =>
            rw [hsl] at hl
            dsimp only at hl
            by_cases hend : data.length < here + 1 + bs
            · rw [if_pos hend] at hl
              dsimp only [DiffOut.evs] at hl
              simp only [List.mem_cons] at hl
              rcases hl with hl | hl
              · exact absurd hl (by simp)
              · exact diffTail_lit st data (by omega) l hl
            · rw [if_neg hend, consEvs_evs] at hl
              simp only [List.cons_append, List.nil_append, List.mem_cons] at hl
              rcases hl with hl | hl
              · exact absurd hl (by simp)
              · exact ih (here + 1) _ (collIncr coll crc) st (by omega)
                  (by omega) l hl
      | none =>
        rw [hmap] at hl
        dsimp only at hl
        by_cases hend : data.length < here + 1 + bs
        · rw [if_pos hend] at hl
          exact diffTail_lit st data (by omega) l hl
        · rw [if_neg hend] at hl
          exact ih (here + 1) _ coll st (by omega) (by omega) l hl
    · rw [if_neg hco] at hl
      by_cases hend : data.length < here + 1 + bs
      · rw [if_pos hend] at hl
        exact diffTail_lit st data (by omega) l hl
      · rw [if_neg hend] at hl
        exact ih (here + 1) _ coll st (by omega) (by omega) l hl

theorem diff_lit (env : HashEnv) (sig : IndexedSignature) (data : List Nat) :
    ∀ l, Ev.lit l ∈ (diff env sig data).evs → 1 ≤ l := by
  intro l hl
  simp only [diff] at hl
  split_ifs at hl with hpre hbs
  · rw [consOut_evs] at hl
    exact diffGo_lit env sig.signature_type sig.block_size sig.crypto_hash_size
      sig.blocks data (data.length + 1) 0 _ [] ⟨0, none⟩
      (by simp [queuedLen]) (by omega) l hl
  · exact diffTail_lit ⟨0, none⟩ data (by simp [queuedLen]) l hl
  · simp [DiffOut.evs] at hl

theorem parFold_lit (env : HashEnv) (n bs : Nat)
    (blocks : List (Crc × List (List Nat × Nat))) (data : List Nat)
    (hbs : 1 ≤ bs) :
    ∀ cnt s st,
      st.emitted + queuedLen st ≤ s →
      s + cnt * bs ≤ data.length ∨ cnt = 0 →
      s ≤ data.length →
      (parFold data st ((List.range' s cnt bs).map
        (parLookup env n bs blocks data))).1.emitted +
        queuedLen (parFold data st ((List.range' s cnt bs).map
          (parLookup env n bs blocks data))).1 ≤ s + cnt * bs ∧
      (∀ l, Ev.lit l ∈ (parFold data st ((List.range' s cnt bs).map
        (parLookup env n bs blocks data))).2.2 → 1 ≤ l) := by
  intro cnt
  induction cnt with
  | zero =>
    intro s st hle _ _
    simp only [List.range', List.map_nil, parFold]
    exact ⟨by omega, by simp⟩
  | succ cnt ih =>
    intro s st hle hup hsl
    have hsb : s + bs ≤ data.length := by
      rcases hup with hup | hup
      · nlinarith
      · omega
    rw [List.range'_succ, List.map_cons]
    have harith : s + bs + cnt * bs = s + (cnt + 1) * bs := by ring
    cases hlook : parLookup env n bs blocks data s with
    | none =>
      obtain ⟨hL1, hL2⟩ := ih (s + bs) st (by omega)
        (by rcases hup with hup | hup
            · left; omega
            · left; nlinarith)
        (by omega)
      rw [harith] at hL1
      exact ⟨by simpa only [parFold] using hL1, by simpa only [parFold] using hL2⟩
    | some v =>
      obtain ⟨idx, slm, hv, _, _⟩ := parLookup_some env n bs blocks data s v hsb
        hlook
      subst hv
      obtain ⟨heE, heQ, heLit⟩ := emit_lite st s data hle (by omega)
      have hcopy := copy_at_emitted (st.emit s data).1 (idx * bs) bs s data heE
      obtain ⟨hL1, hL2⟩ := ih (s + bs) ⟨s, some (idx * bs, bs)⟩
        (by simp only [queuedLen]; omega)
        (by rcases hup with hup | hup
            · left; omega
            · left; nlinarith)
        (by omega)
      rw [harith] at hL1
      simp only [parFold, hcopy]
      refine ⟨by simpa using hL1, ?_⟩
      intro l hl
      simp only [List.append_nil, List.nil_append, List.mem_append] at hl
      rcases hl with hl | hl
      · exact heLit l hl
      · exact hL2 l hl

theorem diff_parallel_lit (env : HashEnv) (sig : IndexedSignature)
    (data : List Nat) (r : DiffOut)
    (hr : diff_parallel env sig data = some r) :
    ∀ l, Ev.lit l ∈ r.evs → 1 ≤ l := by
  intro l hl
  simp only [diff_parallel] at hr
  split_ifs at hr with hmd4 hbl3 hsz hbz
  · injection hr with hr
    rw [← hr] at hl
    exact diff_lit env sig data l hl
  · injection hr with hr
    rw [← hr] at hl
    simp [DiffOut.evs] at hl
  · set bs := sig.block_size with hbs
    set cnt := ((data.length - (bs - 1)) + bs - 1) / bs with hcnt
    have hbs1 : 1 ≤ bs := by omega
    have hcntb : cnt * bs ≤ data.length ∨ cnt = 0 := by
      by_cases hc : bs - 1 ≤ data.length
      · left
        have h1 : data.length - (bs - 1) + bs - 1 = data.length := by omega
        rw [hcnt, h1]
        exact Nat.div_mul_le_self _ _
      · right
        rw [hcnt]
        have h0 : data.length - (bs - 1) = 0 := by omega
        rw [h0]
        exact Nat.div_eq_of_lt (by omega)
    obtain ⟨hL1, hL2⟩ := parFold_lit env sig.crypto_hash_size bs sig.blocks data
      hbs1 cnt 0 ⟨0, none⟩ (by simp [queuedLen])
      (by simpa using hcntb) (by omega)
    injection hr with hr
    rw [← hr] at hl
    dsimp only [DiffOut.evs] at hl
    simp only [List.mem_append] at hl
    rcases hl with hl | hl
    · exact hL2 l hl
    · obtain ⟨_, _, heLit⟩ := emit_lite
        (parFold data ⟨0, none⟩ ((List.range' 0 cnt bs).map
          (parLookup env sig.crypto_hash_size bs sig.blocks data))).1
        data.length data
        (by
          rcases hcntb with hc | hc
          · omega
          · have h0 : cnt * bs = 0 := by rw [hc, Nat.zero_mul]
            omega)
        (le_refl _)
      exact heLit l hl
  · injection hr with hr
    rw [← hr] at hl
    simp [DiffOut.evs] at hl

end SuperfastRsync

namespace SuperfastRsync

theorem consOut_ne_fail (X : DiffOut) (o : List Nat)
    (h : ∀ e evs, X ≠ .fail e evs) :
    ∀ e evs, X.consOut o ≠ .fail e evs := by
  intro e evs
  cases X with
  | timeout evs0 => simp [DiffOut.consOut]
  | fail e0 evs0 => exact absurd rfl (h e0 evs0)
  | done d0 evs0 => simp [DiffOut.consOut]

theorem diffGo_ne_fail (env : HashEnv) (ty : SignatureType) (bs n : Nat)
    (blocks : List (Crc × List (List Nat × Nat))) (data : List Nat)
    (hty : ¬ ty = SignatureType.blake2) :
    ∀ fuel here crc coll st e evs,
      diffGo env ty bs n blocks data fuel here crc coll st ≠ .fail e evs := by
  intro fuel
  induction fuel with
  | zero =>
    intro here crc coll st e evs
    simp [diffGo]
  | succ fuel ih =>
    intro here crc coll st e evs
    rw [diffGo]
    by_cases hco : collOk coll crc = true
    · rw [if_pos hco]
      cases hmap : crcMapGet blocks crc with
      | some slm =>
        dsimp only
        cases hdig : ty.digest? env ((data.drop here).take bs) with
        | none =>
          exact absurd hdig (by cases ty <;>
            simp [SignatureType.digest?] at hty ⊢)
        | some digest =>
          dsimp only
          cases hsl : slmGet slm (digest.take n) with
          | some idx =>
            dsimp only
            by_cases houter : bs + (here + bs) ≤ data.length
            · rw [if_pos houter]
              have hbase := ih (here + bs)
                (Crc.new.update ((data.drop (here + bs)).take bs)) coll
                (st.copy (idx * bs) bs here data).1
              intro hcon
              cases hX : diffGo env ty bs n blocks data fuel (here + bs)
                  (Crc.new.update ((data.drop (here + bs)).take bs)) coll
                  (st.copy (idx * bs) bs here data).1 with
              | timeout evs0 =>
                rw [hX] at hcon
                simp [DiffOut.consOut, DiffOut.consEvs] at hcon
              | fail e0 evs0 => exact hbase e0 evs0 hX
              | done d0 evs0 =>
                rw [hX] at hcon
                simp [DiffOut.consOut, DiffOut.consEvs] at hcon
            · rw [if_neg houter]
              simp
          | none =>
            dsimp only
            by_cases hend : data.length < here + 1 + bs
            · rw [if_pos hend]
              simp
            · rw [if_neg hend]
              intro hcon
              cases hX : diffGo env ty bs n blocks data fuel (here + 1)
                  (crc.rotate bs (data.getD (here + 1 - 1) 0)
                    (data.getD (here + 1 + bs - 1) 0)) (collIncr coll crc) st with
              | timeout evs0 =>
                rw [hX] at hcon
                simp [DiffOut.consEvs] at hcon
              | fail e0 evs0 => exact ih _ _ _ _ e0 evs0 hX
              | done d0 evs0 =>
                rw [hX] at hcon
                simp [DiffOut.consEvs] at hcon
      | none =>
        dsimp only
        by_cases hend : data.length < here + 1 + bs
        · rw [if_pos hend]
          simp
        · rw [if_neg hend]
          exact ih _ _ _ _ e evs
    · rw [if_neg hco]
      by_cases hend : data.length < here + 1 + bs
      · rw [if_pos hend]
        simp
      · rw [if_neg hend]
        exact ih _ _ _ _ e evs

theorem diff_fail_iff (env : HashEnv) (sig : IndexedSignature)
    (data : List Nat) :
    (∃ evs, diff env sig data = .fail .invalidSignature evs) ↔
      (sig.signature_type = .blake2 ∨
        (sig.signature_type = .md4 ∧ MD4_SIZE < sig.crypto_hash_size) ∨
        (sig.signature_type = .blake3 ∧ BLAKE3_SIZE < sig.crypto_hash_size)) := by
  have hchar : diffPreflightOk sig.signature_type sig.crypto_hash_size = false ↔
      (sig.signature_type = .blake2 ∨
        (sig.signature_type = .md4 ∧ MD4_SIZE < sig.crypto_hash_size) ∨
        (sig.signature_type = .blake3 ∧ BLAKE3_SIZE < sig.crypto_hash_size)) := by
    cases hty : sig.signature_type <;>
      simp [diffPreflightOk, MD4_SIZE, BLAKE3_SIZE] <;> try omega
  rw [← hchar]
  constructor
  · rintro ⟨evs, h⟩
    by_contra hok
    have hok' : diffPreflightOk sig.signature_type sig.crypto_hash_size = true := by
      cases hP : diffPreflightOk sig.signature_type sig.crypto_hash_size
      · exact absurd hP hok
      · rfl
    have hty : ¬ sig.signature_type = SignatureType.blake2 := by
      intro hB
      rw [hB] at hok'
      simp [diffPreflightOk] at hok'
    rw [diff] at h
    rw [if_pos hok'] at h
    by_cases hbs : sig.block_size ≤ data.length
    · rw [if_pos hbs] at h
      exact consOut_ne_fail _ _
        (fun e0 evs0 => diffGo_ne_fail env sig.signature_type sig.block_size
          sig.crypto_hash_size sig.blocks data hty _ _ _ _ _ e0 evs0)
        .invalidSignature evs h
    · rw [if_neg hbs] at h
      simp at h
  · intro hbad
    refine ⟨[], ?_⟩
    rw [diff, if_neg (by rw [hbad]; simp)]

end SuperfastRsync

namespace SuperfastRsync

theorem fromMagic_toMagic (ty : SignatureType) :
    SignatureType.fromMagic ty.toMagic = some ty := by
  cases ty <;> rfl

theorem sigBody_length (h : List Nat → List Nat) (n : Nat)
    (hlen : ∀ b, n ≤ (h b).length) :
    ∀ blocks : List (List Nat),
      (sigBody h n blocks).length = blocks.length * (4 + n) := by
  intro blocks
  induction blocks with
  | nil => simp [sigBody]
  | cons b t ih =>
    rw [sigBody, List.map_cons, List.flatten_cons, List.length_append]
    rw [show (List.map (fun b => (Crc.new.update b).toBytes ++ (h b).take n)
          t).flatten = sigBody h n t from rfl]
    rw [ih]
    simp only [List.length_append, toBytes_length, List.length_take,
      List.length_cons]
    have := hlen b
    have hmin : min n (h b).length = n := by omega
    rw [hmin]
    ring

theorem deserialize_calculate (env : HashEnv) (buf : List Nat)
    (opts : SignatureOptions) (s : Signature)
    (hcalc : Signature.calculate? env buf opts = some s)
    (hlen : ∀ b, opts.crypto_hash_size ≤
      ((env.hashFor opts.hash_algorithm) b).length)
    (hbs32 : opts.block_size < 2 ^ 32) :
    Signature.deserialize s.signature = Except.ok s := by
  obtain ⟨hbs, hmax, hs⟩ := calculate_some env buf opts s hcalc
  have hchs32 : opts.crypto_hash_size < 2 ^ 32 := by
    have hm32 : opts.hash_algorithm.maxHashSize ≤ 32 := by
      cases opts.hash_algorithm <;>
        simp [HashAlgorithm.maxHashSize, MD4_SIZE, BLAKE3_SIZE]
    omega
  have hb256 : opts.block_size < 256 ^ 4 := by
    have : (256 : Nat) ^ 4 = 2 ^ 32 := by norm_num
    omega
  have hc256 : opts.crypto_hash_size < 256 ^ 4 := by
    have : (256 : Nat) ^ 4 = 2 ^ 32 := by norm_num
    omega
  set ty := opts.hash_algorithm.toSignatureType with hty
  set body := sigBody (env.hashFor opts.hash_algorithm) opts.crypto_hash_size
    (listChunks opts.block_size buf) with hbody
  have hsig : s.signature = ty.toMagic ++ beBytes 4 opts.block_size ++
      beBytes 4 opts.crypto_hash_size ++ body := by rw [hs]
  have hLen : s.signature.length = 12 + body.length := by
    rw [hsig]
    simp only [List.length_append, toMagic_length, beBytes_length]
  have htake4 : s.signature.take 4 = ty.toMagic := by
    rw [hsig, show ty.toMagic ++ beBytes 4 opts.block_size ++
        beBytes 4 opts.crypto_hash_size ++ body =
      ty.toMagic ++ (beBytes 4 opts.block_size ++
        beBytes 4 opts.crypto_hash_size ++ body) by simp [List.append_assoc]]
    exact List.take_left' (toMagic_length ty)
  have hdrop4 : (s.signature.drop 4).take 4 = beBytes 4 opts.block_size := by
    rw [hsig, show ty.toMagic ++ beBytes 4 opts.block_size ++
        beBytes 4 opts.crypto_hash_size ++ body =
      ty.toMagic ++ (beBytes 4 opts.block_size ++
        (beBytes 4 opts.crypto_hash_size ++ body)) by simp [List.append_assoc]]
    rw [List.drop_left' (toMagic_length ty)]
    exact List.take_left' (beBytes_length 4 _)
  have hdrop8 : (s.signature.drop 8).take 4 =
      beBytes 4 opts.crypto_hash_size := by
    rw [hsig, show ty.toMagic ++ beBytes 4 opts.block_size ++
        beBytes 4 opts.crypto_hash_size ++ body =
      (ty.toMagic ++ beBytes 4 opts.block_size) ++
        (beBytes 4 opts.crypto_hash_size ++ body) by simp [List.append_assoc]]
    rw [List.drop_left' (by simp [toMagic_length, beBytes_length])]
    exact List.take_left' (beBytes_length 4 _)
  have hbodyLen : body.length = (listChunks opts.block_size buf).length *
      (4 + opts.crypto_hash_size) :=
    sigBody_length _ _ hlen _
  rw [Signature.deserialize]
  rw [if_neg (by omega)]
  rw [htake4, fromMagic_toMagic]
  dsimp only
  rw [hdrop4, hdrop8, beVal_beBytes 4 _ hb256, beVal_beBytes 4 _ hc256]
  rw [if_neg (by
    rw [hLen]
    simp only [Crc.SIZE, Nat.add_sub_cancel_left, ne_eq, Decidable.not_not]
    rw [hbodyLen]
    exact Nat.mul_mod_left _ _)]
  rw [hs]

theorem deserialize_ok_iff (blob : List Nat) :
    (∃ s, Signature.deserialize blob = Except.ok s) ↔
      (12 ≤ blob.length ∧
        (SignatureType.fromMagic (blob.take 4)).isSome = true ∧
        (blob.length - 12) % (Crc.SIZE + beVal ((blob.drop 8).take 4)) = 0) := by
  rw [Signature.deserialize]
  by_cases h12 : blob.length < 12
  · rw [if_pos h12]
    simp
    omega
  · rw [if_neg h12]
    cases hfm : SignatureType.fromMagic (blob.take 4) with
    | none =>
      simp [hfm]
    | some ty =>
      dsimp only
      by_cases hmod : (blob.length - 12) %
          (Crc.SIZE + beVal ((blob.drop 8).take 4)) ≠ 0
      · rw [if_pos hmod]
        simp [hfm]
        omega
      · rw [if_neg hmod]
        rw [Decidable.not_not] at hmod
        constructor
        · intro _
          exact ⟨by omega, by simp [hfm], hmod⟩
        · intro _
          exact ⟨_, rfl⟩

theorem calculate_none_iff (env : HashEnv) (buf : List Nat)
    (opts : SignatureOptions) :
    Signature.calculate? env buf opts = none ↔
      (opts.block_size = 0 ∨
        opts.hash_algorithm.maxHashSize < opts.crypto_hash_size) := by
  rw [Signature.calculate?]
  split_ifs with h1 h2
  · simp [h1]
  · simp [h1, h2]
  · simp [h1, h2]

end SuperfastRsync

namespace SuperfastRsync

theorem listChunks_get_full {α : Type} (n : Nat) (hn : 1 ≤ n) :
    ∀ (k : Nat) (l : List α), k * n + n ≤ l.length →
      (listChunks n l)[k]? = some ((l.drop (k * n)).take n) := by
  intro k
  induction k with
  | zero =>
    intro l h
    have hl : l ≠ [] := by
      intro hc
      subst hc
      simp at h
      omega
    rw [listChunks_cons_eq n l (by omega) hl]
    simp
  | succ k ih =>
    intro l h
    have hkk : (k + 1) * n = k * n + n := by ring
    have hl : l ≠ [] := by
      intro hc
      subst hc
      simp at h
      omega
    rw [listChunks_cons_eq n l (by omega) hl]
    simp only [List.getElem?_cons_succ]
    rw [ih (l.drop n) (by simp only [List.length_drop]; omega)]
    have hd : (l.drop n).drop (k * n) = l.drop ((k + 1) * n) := by
      rw [List.drop_drop]
      congr 1
      ring
    rw [hd]

theorem calcIndex_complete (env : HashEnv) (buf : List Nat)
    (opts : SignatureOptions) (s : Signature)
    (hcalc : Signature.calculate? env buf opts = some s)
    (hlen : ∀ b, opts.crypto_hash_size ≤
      ((env.hashFor opts.hash_algorithm) b).length)
    (hnb : (listChunks opts.block_size buf).length ≤ 2 ^ 32)
    (b : List Nat) (hb : b ∈ listChunks opts.block_size buf) :
    ∃ slm i, crcMapGet s.index.blocks (Crc.new.update b) = some slm ∧
      slmGet slm (((env.hashFor opts.hash_algorithm) b).take
        opts.crypto_hash_size) = some i := by
  have h32 : s.blocksList.length ≤ 2 ^ 32 := by
    rw [blocksList_calculate env buf opts s hcalc hlen]
    simpa using hnb
  have hmem : (Crc.new.update b,
      ((env.hashFor opts.hash_algorithm) b).take opts.crypto_hash_size) ∈
      s.blocksList := by
    rw [blocksList_calculate env buf opts s hcalc hlen]
    exact List.mem_map_of_mem _ hb
  obtain ⟨slm, i, h1, h2, _⟩ := buildIndex_complete s.blocksList h32 _ _ hmem
  exact ⟨slm, i, h1, h2⟩

theorem copy_id_coalesce (em qoff qlen off len here : Nat) (data : List Nat)
    (hem : em + qlen = here) (heq : qoff + qlen = off) :
    OutputState.copy ⟨em, some (qoff, qlen)⟩ off len here data =
      (⟨em, some (qoff, qlen + len)⟩, [], []) := by
  simp only [OutputState.copy]
  rw [if_pos (⟨hem, heq⟩ : em + qlen = here ∧ qoff + qlen = off)]

theorem copy_id_flush (em qoff qlen off len here : Nat) (data : List Nat)
    (hem : em + qlen = here) (hq1 : 1 ≤ qlen)
    (hne : ¬ qoff + qlen = off) :
    OutputState.copy ⟨em, some (qoff, qlen)⟩ off len here data =
      (⟨here, some (off, len)⟩, copy_command qoff qlen, []) := by
  simp only [OutputState.copy]
  rw [if_neg (fun h => hne h.2)]
  simp only [OutputState.emit]
  rw [if_neg (show ¬ em = here by omega)]
  rw [if_neg (show ¬ em + qlen < here by omega)]
  rw [hem]

theorem emit_id_flush (em qoff qlen : Nat) (data : List Nat)
    (hem : em + qlen = data.length) (hq1 : 1 ≤ qlen) :
    OutputState.emit ⟨em, some (qoff, qlen)⟩ data.length data =
      (⟨data.length, some (qoff, qlen)⟩, copy_command qoff qlen, []) := by
  simp only [OutputState.emit]
  rw [if_neg (show ¬ em = data.length by omega)]
  rw [if_neg (show ¬ em + qlen < data.length by omega)]
  rw [hem]

theorem diffTail_id (em qoff qlen : Nat) (data : List Nat)
    (hem : em + qlen = data.length) (hq1 : 1 ≤ qlen) :
    diffTail ⟨em, some (qoff, qlen)⟩ data =
      (copy_command qoff qlen ++ [RS_OP_END], []) := by
  rw [diffTail, emit_id_flush em qoff qlen data hem hq1]

theorem diffGo_id (env : HashEnv) (ty : SignatureType) (bs n : Nat)
    (blocks : List (Crc × List (List Nat × Nat))) (data : List Nat)
    (H : List Nat → List Nat)
    (hty : ∀ w, ty.digest? env w = some (H w))
    (hbs : 1 ≤ bs) (hdvd : bs ∣ data.length)
    (hhit : ∀ k, k * bs + bs ≤ data.length → ∃ slm idx,
      crcMapGet blocks
        (Crc.new.update ((data.drop (k * bs)).take bs)) = some slm ∧
      slmGet slm ((H ((data.drop (k * bs)).take bs)).take n) = some idx) :
    ∀ fuel k st,
      data.length < fuel + k * bs →
      k * bs + bs ≤ data.length →
      ((k = 0 ∧ st = ⟨0, none⟩) ∨
        (∃ qoff qlen, st = ⟨k * bs - qlen, some (qoff, qlen)⟩ ∧
          1 ≤ qlen ∧ qlen ≤ k * bs)) →
      ∃ out evs,
        diffGo env ty bs n blocks data fuel (k * bs)
          (Crc.new.update ((data.drop (k * bs)).take bs)) [] st =
          .done out evs ∧ CopyStream out := by
  intro fuel
  induction fuel with
  | zero =>
    intro k st hfu hkb hinv
    omega
  | succ fuel ih =>
    intro k st hfu hkb hinv
    obtain ⟨slm, idx, hmg, hsl⟩ := hhit k hkb
    rw [diffGo]
    rw [if_pos (show collOk []
      (Crc.new.update ((data.drop (k * bs)).take bs)) = true from rfl)]
    rw [hmg]
    dsimp only
    rw [hty]
    dsimp only
    rw [hsl]
    dsimp only
    obtain ⟨st2, out1, hcopy, hinv2, hout1⟩ :
        ∃ st2 out1,
          st.copy (idx * bs) bs (k * bs) data = (st2, out1, ([] : List Ev)) ∧
          (∃ qoff qlen, st2 = ⟨(k * bs + bs) - qlen, some (qoff, qlen)⟩ ∧
            1 ≤ qlen ∧ qlen ≤ k * bs + bs) ∧
          (∀ t, CopyStream t → CopyStream (out1 ++ t)) := by
      rcases hinv with ⟨hk0, hst⟩ | ⟨qoff, qlen, hst, hq1, hqk⟩
      · subst hst
        subst hk0
        refine ⟨⟨0, some (idx * bs, bs)⟩, [], ?_, ⟨idx * bs, bs, ?_, hbs, by omega⟩, ?_⟩
        · simpa using copy_at_emitted ⟨0, none⟩ (idx * bs) bs 0 data rfl
        · rw [show 0 * bs + bs - bs = 0 by omega]
        · intro t ht
          simpa using ht
      · subst hst
        by_cases hco : qoff + qlen = idx * bs
        · rw [copy_id_coalesce _ _ _ _ _ _ data (by omega) hco]
          refine ⟨_, [], rfl, ⟨qoff, qlen + bs, ?_, by omega, by omega⟩, ?_⟩
          · rw [show k * bs + bs - (qlen + bs) = k * bs - qlen by omega]
          · intro t ht
            simpa using ht
        · rw [copy_id_flush _ _ _ _ _ _ data (by omega) hq1 hco]
          refine ⟨_, copy_command qoff qlen, rfl,
            ⟨idx * bs, bs, ?_, hbs, by omega⟩, ?_⟩
          · rw [show k * bs + bs - bs = k * bs by omega]
          · intro t ht
            exact CopyStream.cons qoff qlen t ht
    rw [hcopy]
    dsimp only
    by_cases houter : bs + (k * bs + bs) ≤ data.length
    · rw [if_pos houter]
      have hk1 : (k + 1) * bs = k * bs + bs := by ring
      obtain ⟨out2, evs2, hrec, hcs⟩ := ih (k + 1) st2
        (by rw [hk1]; omega) (by rw [hk1]; omega)
        (by
          right
          obtain ⟨qoff, qlen, h1, h2, h3⟩ := hinv2
          exact ⟨qoff, qlen, by rw [hk1]; exact h1, h2, by rw [hk1]; omega⟩)
      rw [hk1] at hrec
      rw [hrec]
      exact ⟨out1 ++ out2, _, rfl, hout1 _ hcs⟩
    · rw [if_neg houter]
      have hend : k * bs + bs = data.length := by
        obtain ⟨m, hm⟩ := hdvd
        have hle : bs * (k + 1) ≤ bs * m := by
          calc bs * (k + 1) = k * bs + bs := by ring
            _ ≤ data.length := hkb
            _ = bs * m := hm
        have hlt : bs * m < bs * (k + 2) := by
          calc bs * m = data.length := hm.symm
            _ < bs + (k * bs + bs) := by omega
            _ = bs * (k + 2) := by ring
        have hm1 : k + 1 ≤ m := Nat.le_of_mul_le_mul_left hle (by omega)
        have hm2 : m < k + 2 := Nat.lt_of_mul_lt_mul_left hlt
        have hmk : m = k + 1 := by omega
        rw [hm, hmk]
        ring
      obtain ⟨qoff, qlen, hst2, hq1, hqk⟩ := hinv2
      subst hst2
      rw [diffTail_id (k * bs + bs - qlen) qoff qlen data (by omega) hq1]
      refine ⟨out1 ++ (copy_command qoff qlen ++ [RS_OP_END]), _, rfl, ?_⟩
      exact hout1 _ (CopyStream.cons qoff qlen [RS_OP_END] CopyStream.nil)

theorem diff_identity (env : HashEnv) (base : List Nat)
    (opts : SignatureOptions) (s : Signature)
    (hcalc : Signature.calculate? env base opts = some s)
    (hlen : ∀ b, opts.crypto_hash_size ≤
      ((env.hashFor opts.hash_algorithm) b).length)
    (hnb : (listChunks opts.block_size base).length ≤ 2 ^ 32)
    (hdvd : opts.block_size ∣ base.length) :
    ∃ delta evs, diff env s.index base = .done delta evs ∧
      delta.take 4 = beBytes 4 DELTA_MAGIC ∧ CopyStream (delta.drop 4) := by
  obtain ⟨hbs0, hmax, hs⟩ := calculate_some env base opts s hcalc
  have hbs : 1 ≤ opts.block_size := by omega
  have hty : s.index.signature_type = opts.hash_algorithm.toSignatureType := by
    rw [hs]; rfl
  have hbsv : s.index.block_size = opts.block_size := by rw [hs]; rfl
  have hchs : s.index.crypto_hash_size = opts.crypto_hash_size := by
    rw [hs]; rfl
  rw [diff, hty, hbsv, hchs,
    preflight_calc opts.hash_algorithm opts.crypto_hash_size hmax, if_pos rfl]
  by_cases hloop : opts.block_size ≤ base.length
  · rw [if_pos hloop]
    have hhit : ∀ k, k * opts.block_size + opts.block_size ≤ base.length →
        ∃ slm idx, crcMapGet s.index.blocks
          (Crc.new.update ((base.drop (k * opts.block_size)).take
            opts.block_size)) = some slm ∧
        slmGet slm (((env.hashFor opts.hash_algorithm)
          ((base.drop (k * opts.block_size)).take opts.block_size)).take
            opts.crypto_hash_size) = some idx := by
      intro k hk
      have hch := listChunks_get_full opts.block_size hbs k base hk
      have hmem : (base.drop (k * opts.block_size)).take opts.block_size ∈
          listChunks opts.block_size base := List.getElem?_mem hch
      exact calcIndex_complete env base opts s hcalc hlen hnb _ hmem
    obtain ⟨out, evs, hrun, hcs⟩ := diffGo_id env
      opts.hash_algorithm.toSignatureType opts.block_size
      opts.crypto_hash_size s.index.blocks base
      (env.hashFor opts.hash_algorithm)
      (digest_hashFor env opts.hash_algorithm) hbs hdvd hhit
      (base.length + 1) 0 ⟨0, none⟩ (by omega) (by omega) (Or.inl ⟨rfl, rfl⟩)
    simp only [Nat.zero_mul] at hrun
    rw [hrun]
    refine ⟨beBytes 4 DELTA_MAGIC ++ out, evs, rfl, ?_, ?_⟩
    · exact List.take_left' (beBytes_length 4 _)
    · rw [List.drop_left' (beBytes_length 4 _)]
      exact hcs
  · rw [if_neg hloop]
    have hl0 : base.length = 0 := by
      rcases Nat.eq_zero_or_pos base.length with h0 | hpos
      · exact h0
      · exact absurd (Nat.le_of_dvd hpos hdvd) hloop
    have hb0 : base = [] := List.length_eq_zero.mp hl0
    subst hb0
    refine ⟨beBytes 4 DELTA_MAGIC ++ [RS_OP_END], [], rfl, ?_, ?_⟩
    · exact List.take_left' (beBytes_length 4 _)
    · rw [List.drop_left' (beBytes_length 4 _)]
      exact CopyStream.nil

end SuperfastRsync

namespace SuperfastRsync

theorem diffGo_hit_step (env : HashEnv) (ty : SignatureType) (bs n : Nat)
    (blocks : List (Crc × List (List Nat × Nat))) (data : List Nat)
    (fuel here : Nat) (crc : Crc) (st : OutputState)
    (slm : List (List Nat × Nat)) (d : List Nat) (idx off : Nat)
    (hmg : crcMapGet blocks crc = some slm)
    (hdig : ty.digest? env ((data.drop here).take bs) = some d)
    (hsl : slmGet slm (d.take n) = some idx)
    (hoff : idx * bs = off) :
    diffGo env ty bs n blocks data (fuel + 1) here crc [] st =
      (if bs + (here + bs) ≤ data.length then
        (((diffGo env ty bs n blocks data fuel (here + bs)
            (Crc.new.update ((data.drop (here + bs)).take bs)) []
            (st.copy off bs here data).1).consOut
          (st.copy off bs here data).2.1).consEvs
          (Ev.hash crc true :: (st.copy off bs here data).2.2))
      else
        .done ((st.copy off bs here data).2.1 ++
            (diffTail (st.copy off bs here data).1 data).1)
          (Ev.hash crc true :: ((st.copy off bs here data).2.2 ++
            (diffTail (st.copy off bs here data).1 data).2))) := by
  rw [diffGo]
  rw [if_pos (show collOk [] crc = true from rfl)]
  rw [hmg]
  dsimp only
  rw [hdig]
  dsimp only
  rw [hsl]
  dsimp only
  rw [hoff]

theorem c47_length : c47.length = 1024 := by
  rw [c47, List.length_flatten, List.map_replicate, List.sum_replicate]
  norm_num

theorem base47_parts : base47 = c47 ++ (c47 ++ (c47 ++ (c47 ++ []))) := rfl

theorem base47_length : base47.length = 4096 := by
  rw [base47_parts]
  simp [c47_length]

theorem base47_win0 : base47.take 1024 = c47 := by
  rw [base47_parts]
  exact List.take_left' c47_length

theorem base47_win1 : (base47.drop 1024).take 1024 = c47 := by
  rw [base47_parts, List.drop_left' c47_length]
  exact List.take_left' c47_length

theorem base47_win2 : (base47.drop 2048).take 1024 = c47 := by
  have hb2 : base47 = (c47 ++ c47) ++ (c47 ++ (c47 ++ [])) := by
    rw [base47_parts, List.append_assoc]
  rw [hb2, List.drop_left' (by simp [c47_length])]
  exact List.take_left' c47_length

theorem base47_win3 : (base47.drop 3072).take 1024 = c47 := by
  have hb3 : base47 = (c47 ++ c47 ++ c47) ++ (c47 ++ []) := by
    rw [base47_parts]
    simp [List.append_assoc]
  rw [hb3, List.drop_left' (by simp [c47_length])]
  exact List.take_left' c47_length

theorem diffGo_c7 (env : HashEnv) (f : Nat) :
    diffGo env SignatureType.blake3 1024 4
      [(Crc.new.update c47, [((env.blake3 c47).take 4, 3)])] base47
      (f + 1 + 1 + 1 + 1) 0 (Crc.new.update c47) [] ⟨0, none⟩ =
      .done (copy_command 3072 1024 ++ (copy_command 3072 1024 ++
          (copy_command 3072 1024 ++ (copy_command 3072 1024 ++ [RS_OP_END]))))
        [Ev.hash (Crc.new.update c47) true, Ev.hash (Crc.new.update c47) true,
          Ev.hash (Crc.new.update c47) true,
          Ev.hash (Crc.new.update c47) true] := by
  have hmgC : crcMapGet [(Crc.new.update c47, [((env.blake3 c47).take 4, 3)])]
      (Crc.new.update c47) = some [((env.blake3 c47).take 4, 3)] := by
    simp [crcMapGet]
  have hslC : slmGet [((env.blake3 c47).take 4, 3)]
      ((env.blake3 c47).take 4) = some 3 := by
    simp [slmGet]
  have hdig0 : SignatureType.blake3.digest? env ((base47.drop 0).take 1024) =
      some (env.blake3 c47) := by
    rw [List.drop_zero, base47_win0]
    rfl
  have hdig1 : SignatureType.blake3.digest? env ((base47.drop 1024).take 1024) =
      some (env.blake3 c47) := by
    rw [base47_win1]
    rfl
  have hdig2 : SignatureType.blake3.digest? env ((base47.drop 2048).take 1024) =
      some (env.blake3 c47) := by
    rw [base47_win2]
    rfl
  have hdig3 : SignatureType.blake3.digest? env ((base47.drop 3072).take 1024) =
      some (env.blake3 c47) := by
    rw [base47_win3]
    rfl
  rw [diffGo_hit_step env SignatureType.blake3 1024 4
    [(Crc.new.update c47, [((env.blake3 c47).take 4, 3)])] base47
    (f + 1 + 1 + 1) 0 (Crc.new.update c47) ⟨0, none⟩
    [((env.blake3 c47).take 4, 3)] (env.blake3 c47) 3 3072
    hmgC hdig0 hslC (by norm_num)]
  rw [if_pos (show 1024 + (0 + 1024) ≤ base47.length by
    rw [base47_length]; norm_num)]
  rw [copy_at_emitted ⟨0, none⟩ 3072 1024 0 base47 rfl]
  rw [Nat.zero_add]
  rw [diffGo_hit_step env SignatureType.blake3 1024 4
    [(Crc.new.update c47, [((env.blake3 c47).take 4, 3)])] base47
    (f + 1 + 1) 1024 (Crc.new.update ((base47.drop 1024).take 1024))
    ⟨0, some (3072, 1024)⟩
    [((env.blake3 c47).take 4, 3)] (env.blake3 c47) 3 3072
    (by rw [base47_win1]; exact hmgC) hdig1 hslC (by norm_num)]
  rw [if_pos (show 1024 + (1024 + 1024) ≤ base47.length by
    rw [base47_length]; norm_num)]
  rw [copy_id_flush 0 3072 1024 3072 1024 1024 base47 (by norm_num)
    (by norm_num) (by norm_num)]
  rw [show (1024 : Nat) + 1024 = 2048 by norm_num]
  rw [diffGo_hit_step env SignatureType.blake3 1024 4
    [(Crc.new.update c47, [((env.blake3 c47).take 4, 3)])] base47
    (f + 1) 2048 (Crc.new.update ((base47.drop 2048).take 1024))
    ⟨1024, some (3072, 1024)⟩
    [((env.blake3 c47).take 4, 3)] (env.blake3 c47) 3 3072
    (by rw [base47_win2]; exact hmgC) hdig2 hslC (by norm_num)]
  rw [if_pos (show 1024 + (2048 + 1024) ≤ base47.length by
    rw [base47_length])]
  rw [copy_id_flush 1024 3072 1024 3072 1024 2048 base47 (by norm_num)
    (by norm_num) (by norm_num)]
  rw [show (2048 : Nat) + 1024 = 3072 by norm_num]
  rw [diffGo_hit_step env SignatureType.blake3 1024 4
    [(Crc.new.update c47, [((env.blake3 c47).take 4, 3)])] base47
    f 3072 (Crc.new.update ((base47.drop 3072).take 1024))
    ⟨2048, some (3072, 1024)⟩
    [((env.blake3 c47).take 4, 3)] (env.blake3 c47) 3 3072
    (by rw [base47_win3]; exact hmgC) hdig3 hslC (by norm_num)]
  rw [if_neg (show ¬ 1024 + (3072 + 1024) ≤ base47.length by
    rw [base47_length]; norm_num)]
  rw [copy_id_flush 2048 3072 1024 3072 1024 3072 base47 (by norm_num)
    (by norm_num) (by norm_num)]
  rw [diffTail_id 3072 3072 1024 base47 (by rw [base47_length]) (by norm_num)]
  simp only [DiffOut.consOut, DiffOut.consEvs, List.nil_append,
    List.cons_append, List.append_nil]
  rw [base47_win1, base47_win2, base47_win3]

end SuperfastRsync

namespace SuperfastRsync

set_option maxRecDepth 8000 in
theorem diff_c7 (env : HashEnv) (s : Signature)
    (hlen : ∀ b, 4 ≤ (env.blake3 b).length)
    (hcalc : Signature.calculate? env base47
      ⟨1024, 4, HashAlgorithm.blake3⟩ = some s) :
    diff env s.index base47 = .done
      (beBytes 4 DELTA_MAGIC ++ (copy_command 3072 1024 ++
        (copy_command 3072 1024 ++ (copy_command 3072 1024 ++
          (copy_command 3072 1024 ++ [RS_OP_END])))))
      [Ev.hash (Crc.new.update c47) true, Ev.hash (Crc.new.update c47) true,
        Ev.hash (Crc.new.update c47) true,
        Ev.hash (Crc.new.update c47) true] := by
  obtain ⟨hbs0, hmax, hs⟩ := calculate_some env base47
    ⟨1024, 4, HashAlgorithm.blake3⟩ s hcalc
  have hty : s.index.signature_type = SignatureType.blake3 := by rw [hs]; rfl
  have hbsv : s.index.block_size = 1024 := by rw [hs]; rfl
  have hchs : s.index.crypto_hash_size = 4 := by rw [hs]; rfl
  have hlenH : ∀ b,
      (⟨1024, 4, HashAlgorithm.blake3⟩ : SignatureOptions).crypto_hash_size ≤
      ((env.hashFor
        (⟨1024, 4, HashAlgorithm.blake3⟩ :
          SignatureOptions).hash_algorithm) b).length := by
    intro b
    simpa [HashEnv.hashFor] using hlen b
  have hchunks : listChunks 1024 base47 = [c47, c47, c47, c47] := by
    have h := listChunks_flatten 1024 (by norm_num) (List.replicate 4 c47)
      (fun r hr => by rw [List.eq_of_mem_replicate hr]; exact c47_length)
    rw [show base47 = (List.replicate 4 c47).flatten from rfl, h]
    rfl
  have hgen : ∀ (R : Crc) (K : List Nat),
      buildIndex [(R, K), (R, K), (R, K), (R, K)] = [(R, [(K, 3)])] := by
    intro R K
    simp [buildIndex, buildIndexGo, crcMapInsert, slmInsert]
  have hblk : s.index.blocks =
      [(Crc.new.update c47, [((env.blake3 c47).take 4, 3)])] := by
    have h1 : s.index.blocks = buildIndex s.blocksList := rfl
    rw [h1, blocksList_calculate env base47
      ⟨1024, 4, HashAlgorithm.blake3⟩ s hcalc hlenH]
    dsimp only
    rw [hchunks]
    simp only [List.map_cons, List.map_nil, HashEnv.hashFor]
    exact hgen (Crc.new.update c47) ((env.blake3 c47).take 4)
  rw [diff, hty, hbsv, hchs]
  rw [show diffPreflightOk SignatureType.blake3 4 = true from rfl, if_pos rfl]
  rw [if_pos (show 1024 ≤ base47.length by rw [base47_length]; norm_num)]
  rw [hblk, List.drop_zero, base47_win0]
  rw [show base47.length + 1 = base47.length - 3 + 1 + 1 + 1 + 1 by
    simp [base47_length]]
  rw [diffGo_c7 env (base47.length - 3)]
  rfl

end SuperfastRsync

namespace SuperfastRsync

/-- Claim C1: for every base, target, and valid option set (block size
positive, crypto hash size at most the family maximum, digests long and
injective enough on their kept prefix), applying the delta produced by
`diff` over the indexed signature of the base reconstructs the target
exactly: `apply base (diff (calculate base opts).index target) = ok target`.
The base must have at most `2 ^ 32` blocks so the `idx as u32` cast of
`Signature::index` does not wrap. -/
theorem claim_C1 (env : HashEnv) (base target : List Nat)
    (opts : SignatureOptions) (s : Signature)
    (hcalc : Signature.calculate? env base opts = some s)
    (hlen : ∀ b, opts.crypto_hash_size ≤
      ((env.hashFor opts.hash_algorithm) b).length)
    (hinj : ∀ x y,
      ((env.hashFor opts.hash_algorithm) x).take opts.crypto_hash_size =
        ((env.hashFor opts.hash_algorithm) y).take opts.crypto_hash_size →
        x = y)
    (hnb : (listChunks opts.block_size base).length ≤ 2 ^ 32)
    (hd64 : target.length < 2 ^ 64) (hb64 : base.length < 2 ^ 64) :
    ∃ delta evs, diff env s.index target = .done delta evs ∧
      apply base delta = .ok target := by
  obtain ⟨delta, evs, h1, h2, _⟩ := diff_apply_roundtrip env base target opts s
    hcalc hlen hinj hnb hd64 hb64
  exact ⟨delta, evs, h1, h2⟩

theorem claim_C1_witness :
    ∃ s delta evs,
      Signature.calculate? env0 [97] ⟨1, 1, HashAlgorithm.md4⟩ = some s ∧
      diff env0 s.index [98, 97] = .done delta evs ∧
      apply [97] delta = .ok [98, 97] := by
  obtain ⟨delta, evs, h1, h2⟩ := claim_C1 env0 [97] [98, 97]
    ⟨1, 1, HashAlgorithm.md4⟩ _ rfl
    (fun b => by simp [HashEnv.hashFor, env0])
    (fun x y h => Encodable.encode_injective
      (by simpa [HashEnv.hashFor, env0] using h))
    ((listChunks_length_le 1 (by norm_num) [97]).trans (by norm_num))
    (by norm_num) (by norm_num)
  exact ⟨_, delta, evs, rfl, h1, h2⟩

/-- Claim C2: for every base, target, and valid BLAKE3 option set, the
delta produced by `diff_parallel` also applies cleanly against the base to
reconstruct the target exactly; as in C1 the base must have at most
`2 ^ 32` blocks so the stored `u32` block indices do not wrap. -/
theorem claim_C2 (env : HashEnv) (base target : List Nat) (bs chs : Nat)
    (s : Signature)
    (hcalc : Signature.calculate? env base ⟨bs, chs, .blake3⟩ = some s)
    (hlen : ∀ b, chs ≤ (env.blake3 b).length)
    (hinj : ∀ x y, (env.blake3 x).take chs = (env.blake3 y).take chs → x = y)
    (hnb : (listChunks bs base).length ≤ 2 ^ 32)
    (hd64 : target.length < 2 ^ 64) (hb64 : base.length < 2 ^ 64) :
    ∃ delta evs, diff_parallel env s.index target = some (.done delta evs) ∧
      apply base delta = .ok target := by
  obtain ⟨delta, evs, h1, h2, _⟩ := diff_parallel_roundtrip env base target
    bs chs s hcalc hlen hinj hnb hd64 hb64
  exact ⟨delta, evs, h1, h2⟩

theorem claim_C2_witness :
    ∃ s delta evs,
      Signature.calculate? env0 [97] ⟨1, 1, HashAlgorithm.blake3⟩ = some s ∧
      diff_parallel env0 s.index [98, 97] = some (.done delta evs) ∧
      apply [97] delta = .ok [98, 97] := by
  obtain ⟨delta, evs, h1, h2⟩ := claim_C2 env0 [97] [98, 97] 1 1 _ rfl
    (fun b => by simp [env0])
    (fun x y h => Encodable.encode_injective (by simpa [env0] using h))
    ((listChunks_length_le 1 (by norm_num) [97]).trans (by norm_num))
    (by norm_num) (by norm_num)
  exact ⟨_, delta, evs, rfl, h1, h2⟩

/-- Claim C3: deserializing the serialized bytes of a calculated signature
yields the original signature back (block sizes are `u32` in the source,
hence the `2 ^ 32` bound). -/
theorem claim_C3 (env : HashEnv) (buf : List Nat) (opts : SignatureOptions)
    (s : Signature)
    (hcalc : Signature.calculate? env buf opts = some s)
    (hlen : ∀ b, opts.crypto_hash_size ≤
      ((env.hashFor opts.hash_algorithm) b).length)
    (hbs32 : opts.block_size < 2 ^ 32) :
    Signature.deserialize s.signature = Except.ok s :=
  deserialize_calculate env buf opts s hcalc hlen hbs32

theorem claim_C3_witness :
    ∃ s, Signature.calculate? env0 [97] ⟨1, 1, HashAlgorithm.md4⟩ = some s ∧
      Signature.deserialize s.signature = Except.ok s := by
  refine ⟨_, rfl, claim_C3 env0 [97] ⟨1, 1, HashAlgorithm.md4⟩ _ rfl
    (fun b => by simp [HashEnv.hashFor, env0]) (by norm_num)⟩

/-- Claim C4: `deserialize` succeeds exactly when the blob is at least 12
bytes, its first 4 bytes are a recognized magic, and the remaining length
is divisible by `4 + crypto_hash_size` (read from bytes 8..12); otherwise
it fails with the invalid-signature error, and success never depends on
the per-block hash payload (only on the length and the 12-byte header). -/
theorem claim_C4 (blob : List Nat) :
    ((∃ s, Signature.deserialize blob = Except.ok s) ↔
      (12 ≤ blob.length ∧
        (SignatureType.fromMagic (blob.take 4)).isSome = true ∧
        (blob.length - 12) % (Crc.SIZE + beVal ((blob.drop 8).take 4)) = 0)) ∧
    ((∃ s, Signature.deserialize blob = Except.ok s) ∨
      Signature.deserialize blob = Except.error ()) ∧
    (∀ blob2 : List Nat, blob.length = blob2.length →
      blob.take 12 = blob2.take 12 →
      ((∃ s, Signature.deserialize blob = Except.ok s) ↔
        (∃ s2, Signature.deserialize blob2 = Except.ok s2))) := by
  refine ⟨deserialize_ok_iff blob, ?_, ?_⟩
  · cases h : Signature.deserialize blob with
    | error e =>
      right
      rfl
    | ok s => exact Or.inl ⟨s, rfl⟩
  · intro blob2 hL htake
    rw [deserialize_ok_iff blob, deserialize_ok_iff blob2]
    have h4 : blob.take 4 = blob2.take 4 := by
      have hc := congrArg (List.take 4) htake
      simp [List.take_take] at hc
      exact hc
    have h8 : (blob.drop 8).take 4 = (blob2.drop 8).take 4 := by
      have hc := congrArg (List.drop 8) htake
      simp [List.drop_take] at hc
      exact hc
    rw [hL, h4, h8]

/-- Claim C5: `diff` fails with `InvalidSignature` exactly when the
signature family is BLAKE2 or the signature's `crypto_hash_size` exceeds
the family maximum (16 for MD4, 32 for BLAKE3); in particular a 12-byte
blob with the BLAKE2 magic `0x72730137` passes `deserialize` but makes
`diff` fail. -/
theorem claim_C5 (env : HashEnv) (sig : IndexedSignature) (data : List Nat) :
    ((∃ evs, diff env sig data = .fail .invalidSignature evs) ↔
      (sig.signature_type = .blake2 ∨
        (sig.signature_type = .md4 ∧ MD4_SIZE < sig.crypto_hash_size) ∨
        (sig.signature_type = .blake3 ∧ BLAKE3_SIZE < sig.crypto_hash_size))) ∧
    (∃ s2, Signature.deserialize
        (beBytes 4 BLAKE2_MAGIC ++ (beBytes 4 1 ++ beBytes 4 32)) =
          Except.ok s2 ∧
      ∃ evs2, diff env s2.index data = .fail .invalidSignature evs2) := by
  refine ⟨diff_fail_iff env sig data, ⟨_, rfl, [], rfl⟩⟩

/-- Claim C6 (corrected): when the target equals the base, the block
size divides the base length, and the base has at most `2 ^ 32` blocks
(no `u32` index wrap), `diff` produces a delta whose body is only
COPY instructions followed by END, and it applies back to the base; when
the block size does not divide the base length the trailing partial block
is emitted as a literal instruction, refuting the unconditional claim. -/
theorem claim_C6 (env : HashEnv) (base : List Nat) (opts : SignatureOptions)
    (s : Signature)
    (hcalc : Signature.calculate? env base opts = some s)
    (hlen : ∀ b, opts.crypto_hash_size ≤
      ((env.hashFor opts.hash_algorithm) b).length)
    (hinj : ∀ x y,
      ((env.hashFor opts.hash_algorithm) x).take opts.crypto_hash_size =
        ((env.hashFor opts.hash_algorithm) y).take opts.crypto_hash_size →
        x = y)
    (hnb : (listChunks opts.block_size base).length ≤ 2 ^ 32)
    (hb64 : base.length < 2 ^ 64)
    (hdvd : opts.block_size ∣ base.length) :
    ∃ delta evs, diff env s.index base = .done delta evs ∧
      delta.take 4 = beBytes 4 DELTA_MAGIC ∧
      CopyStream (delta.drop 4) ∧
      apply base delta = .ok base := by
  obtain ⟨d1, e1, h1, ht, hcs⟩ := diff_identity env base opts s hcalc hlen hnb
    hdvd
  obtain ⟨d2, e2, h2, happ, _⟩ := diff_apply_roundtrip env base base opts s
    hcalc hlen hinj hnb hb64 hb64
  rw [h1] at h2
  injection h2 with hd he
  refine ⟨d1, e1, h1, ht, hcs, ?_⟩
  rw [← hd] at happ
  exact happ

theorem claim_C6_witness :
    ∃ s delta evs,
      Signature.calculate? env0 [97, 98] ⟨1, 1, HashAlgorithm.md4⟩ = some s ∧
      diff env0 s.index [97, 98] = .done delta evs ∧
      CopyStream (delta.drop 4) ∧
      apply [97, 98] delta = .ok [97, 98] := by
  obtain ⟨delta, evs, h1, h2, h3, h4⟩ := claim_C6 env0 [97, 98]
    ⟨1, 1, HashAlgorithm.md4⟩ _ rfl
    (fun b => by simp [HashEnv.hashFor, env0])
    (fun x y h => Encodable.encode_injective
      (by simpa [HashEnv.hashFor, env0] using h))
    ((listChunks_length_le 1 (by norm_num) [97, 98]).trans (by norm_num))
    (by norm_num) (by decide)
  exact ⟨_, delta, evs, rfl, h1, h3, h4⟩

theorem claim_C6_counterexample :
    ∃ s delta evs,
      Signature.calculate? envC [97] ⟨2, 1, HashAlgorithm.md4⟩ = some s ∧
      diff envC s.index [97] = .done delta evs ∧
      delta = beBytes 4 DELTA_MAGIC ++ [1, 97, 0] ∧
      ¬ CopyStream (delta.drop 4) := by
  refine ⟨_, beBytes 4 DELTA_MAGIC ++ [1, 97, 0], [Ev.lit 1], rfl, rfl, rfl, ?_⟩
  have hgen : ∀ l, CopyStream l → l ≠ [1, 97, 0] := by
    intro l hl
    cases hl with
    | nil => decide
    | cons off len t ht =>
      intro hc
      rw [copy_command] at hc
      simp only [List.cons_append] at hc
      injection hc with hhead _
      simp only [RS_OP_COPY_N1_N1] at hhead
      omega
  exact fun h => hgen _ h rfl

/-- Claim C7 (corrected): for base = "abcd" × 1024 (4096 bytes), target =
base, block_size = 1024, BLAKE3, crypto_hash_size = 4, `diff` emits FOUR
separate COPY(offset 3072, len 1024) instructions — deduplication makes
every lookup resolve to the last identical block and the coalescing test
`queued_offset + queued_len == offset` (3072 + 1024 ≠ 3072) always fails —
not the single coalesced COPY(0, 4096) the spec expects. -/
theorem claim_C7 (env : HashEnv) (hlen : ∀ b, 4 ≤ (env.blake3 b).length) :
    ∃ s evs,
      Signature.calculate? env base47 ⟨1024, 4, HashAlgorithm.blake3⟩ =
        some s ∧
      diff env s.index base47 = .done
        (beBytes 4 DELTA_MAGIC ++ (copy_command 3072 1024 ++
          (copy_command 3072 1024 ++ (copy_command 3072 1024 ++
            (copy_command 3072 1024 ++ [RS_OP_END]))))) evs ∧
      beBytes 4 DELTA_MAGIC ++ (copy_command 3072 1024 ++
          (copy_command 3072 1024 ++ (copy_command 3072 1024 ++
            (copy_command 3072 1024 ++ [RS_OP_END])))) ≠
        beBytes 4 DELTA_MAGIC ++ (copy_command 0 4096 ++ [RS_OP_END]) := by
  refine ⟨_, _, rfl, diff_c7 env _ hlen rfl, by decide⟩

theorem claim_C7_witness :
    ∃ s evs,
      Signature.calculate? env0 base47 ⟨1024, 4, HashAlgorithm.blake3⟩ =
        some s ∧
      diff env0 s.index base47 = .done
        (beBytes 4 DELTA_MAGIC ++ (copy_command 3072 1024 ++
          (copy_command 3072 1024 ++ (copy_command 3072 1024 ++
            (copy_command 3072 1024 ++ [RS_OP_END]))))) evs ∧
      beBytes 4 DELTA_MAGIC ++ (copy_command 3072 1024 ++
          (copy_command 3072 1024 ++ (copy_command 3072 1024 ++
            (copy_command 3072 1024 ++ [RS_OP_END])))) ≠
        beBytes 4 DELTA_MAGIC ++ (copy_command 0 4096 ++ [RS_OP_END]) :=
  claim_C7 env0 (fun b => by simp [env0])

theorem claim_C7_counterexample :
    ∃ s evs,
      Signature.calculate? envC base47 ⟨1024, 4, HashAlgorithm.blake3⟩ =
        some s ∧
      diff envC s.index base47 = .done
        (beBytes 4 DELTA_MAGIC ++ (copy_command 3072 1024 ++
          (copy_command 3072 1024 ++ (copy_command 3072 1024 ++
            (copy_command 3072 1024 ++ [RS_OP_END]))))) evs ∧
      beBytes 4 DELTA_MAGIC ++ (copy_command 3072 1024 ++
          (copy_command 3072 1024 ++ (copy_command 3072 1024 ++
            (copy_command 3072 1024 ++ [RS_OP_END])))) ≠
        beBytes 4 DELTA_MAGIC ++ (copy_command 0 4096 ++ [RS_OP_END]) := by
  refine ⟨_, _, rfl, diff_c7 envC _ (fun b => by simp [envC]) rfl, by decide⟩

/-- Claim C8: in any single run of `diff`, for each CRC value at most
`MAX_CRC_COLLISIONS = 1024` strong-hash computations happen on windows
whose strong prefix fails to match, and every strong-hash event for that
CRC occurs while its collision count is still below the bound. -/
theorem claim_C8 (env : HashEnv) (sig : IndexedSignature) (data : List Nat)
    (c : Crc) :
    EvGuard c 0 (diff env sig data).evs ∧
      missCount (diff env sig data).evs c ≤ MAX_CRC_COLLISIONS := by
  refine ⟨diff_evguard env sig data c, ?_⟩
  have h := evGuard_missCount c (diff env sig data).evs 0
    (diff_evguard env sig data c) (by norm_num [MAX_CRC_COLLISIONS])
  simpa using h

/-- Claim C9 (corrected): `Signature::calculate` panics exactly when
`block_size = 0` or `crypto_hash_size` exceeds the family maximum; the
code does NOT check `crypto_hash_size ≥ 1`, so `crypto_hash_size = 0`
(invalid per the spec's `1..=max` range) returns normally. -/
theorem claim_C9 (env : HashEnv) (buf : List Nat) (opts : SignatureOptions) :
    Signature.calculate? env buf opts = none ↔
      (opts.block_size = 0 ∨
        opts.hash_algorithm.maxHashSize < opts.crypto_hash_size) :=
  calculate_none_iff env buf opts

theorem claim_C9_counterexample :
    (Signature.calculate? envC [] ⟨1, 0, HashAlgorithm.md4⟩).isSome = true ∧
      (⟨1, 0, HashAlgorithm.md4⟩ : SignatureOptions).crypto_hash_size = 0 :=
  ⟨rfl, rfl⟩

/-- Claim C10: every literal instruction written by `diff` or
`diff_parallel` has length at least 1 (`emit` only calls `insert_command`
when `emitted < until`), so `insert_command`'s `len != 0` assertion never
fires. -/
theorem claim_C10 (env : HashEnv) (sig : IndexedSignature)
    (data : List Nat) :
    (∀ l, Ev.lit l ∈ (diff env sig data).evs → 1 ≤ l) ∧
      ∀ r, diff_parallel env sig data = some r →
        ∀ l, Ev.lit l ∈ r.evs → 1 ≤ l :=
  ⟨diff_lit env sig data, fun r hr => diff_parallel_lit env sig data r hr⟩

end SuperfastRsync
